import Mathlib

/-!
Verification of the libscm page-cache core and its renderer-facing layers.

The development shallowly embeds the C++ sources:
- `scm-image.cpp`   : atlas binding and page-uniform computation,
- `scm-render.cpp`  : composite render-path dispatch,
- `scm-cache.hpp`   : cache configuration constants,
- `scm-state.cpp`   : viewer-state constructors and mutators,
and a model of the cache controller operations (`scm-cache.cpp` is not part
of the source snapshot; its operations are modelled from the specification).

Machine doubles are modelled as exact rationals or reals; C++ int values
that are nonnegative in context are modelled as naturals.
-/

namespace Scm

/-! ## Image layer: scm-image.cpp -/

/-- Blend factor computed by scm_image::bind_page (scm-image.cpp lines 68-74):
a = (t - u) / 60.0, then the chain: if l == 0 then a = 0, else clamp into
[0, 1]. The slot l returned by scm_cache::get_page is a nonnegative int. -/
def bind_page_a (l : ℕ) (t u : ℤ) : ℚ :=
  let a : ℚ := ((t : ℚ) - (u : ℚ)) / 60
  if l = 0 then 0
  else if 1 < a then 1
  else if a < 0 then 0
  else a

/-- Page-offset uniform computed by scm_image::bind_page (lines 80-81):
b = (GLfloat((l % s)*(n+2)+1) / GLfloat(s*(n+2)),
     GLfloat((l / s)*(n+2)+1) / GLfloat(s*(n+2))).
Integer arithmetic happens in int, the division in float (here ℚ). -/
def bind_page_b (l s n : ℕ) : ℚ × ℚ :=
  ((((l % s) * (n + 2) + 1 : ℕ) : ℚ) / ((s * (n + 2) : ℕ) : ℚ),
   (((l / s) * (n + 2) + 1 : ℕ) : ℚ) / ((s * (n + 2) : ℕ) : ℚ))

/-- Full uniform output of scm_image::bind_page: the fade uniform a and the
offset uniform b, as functions of the cache result (l, u), the frame t and
the cache geometry (s, n). -/
def bind_page_out (l : ℕ) (t u : ℤ) (s n : ℕ) : ℚ × (ℚ × ℚ) :=
  (bind_page_a l t u, bind_page_b l s n)

/-- Sample mapping of scm_image::get_page_sample (line 103): the raw cache
value v is mapped to v * (k1 - k0) + k0. -/
def get_page_sample (k0 k1 v : ℚ) : ℚ :=
  v * (k1 - k0) + k0

/-- Bounds mapping of scm_image::get_page_bounds (lines 110-111): the cache
supplies (r0, r1); the function returns
(r0 * (k1 - k0) + k0, r1 * (k1 - k1) + k1). -/
def get_page_bounds (k0 k1 r0 r1 : ℚ) : ℚ × ℚ :=
  (r0 * (k1 - k0) + k0, r1 * (k1 - k1) + k1)

/-! ## Cache configuration constants: scm-cache.hpp -/

/-- Constructor parameters of scm_cache (scm-cache.hpp line 36): five ints.
Their meanings are fixed by scm-cache.cpp, which is outside the snapshot;
the header alone determines that the queue capacities below are static
class constants, not members initialized from these parameters. -/
structure CacheCtorArgs where
  a1 : ℤ
  a2 : ℤ
  a3 : ℤ
  a4 : ℤ
  a5 : ℤ

/-- Static configuration carried by every constructed scm_cache instance.
From scm-cache.hpp lines 61-63: the three values are static const ints with
in-class initializers 32, 8 and 2. -/
structure CacheStaticConfig where
  args : CacheCtorArgs
  need_queue_size : ℤ
  load_queue_size : ℤ
  max_loads_per_update : ℤ

/-- Construction of an scm_cache, restricted to its static configuration:
whatever the five constructor arguments are, the instance carries the
class-level constants need_queue_size = 32, load_queue_size = 8 and
max_loads_per_update = 2 (scm-cache.hpp lines 61-63). -/
def scm_cache_ctor (a : CacheCtorArgs) : CacheStaticConfig :=
  { args := a
    need_queue_size := 32
    load_queue_size := 8
    max_loads_per_update := 2 }

/-! ## Render dispatch: scm-render.cpp -/

/-- Fade test of scm_render::check_fade (scm-render.cpp lines 499-508).
Scenes are compared by pointer identity; pointers are modelled as naturals.
Returns false when t < 1/255, true when either scene pair differs. -/
def check_fade (fg0 fg1 bg0 bg1 : ℕ) (t : ℚ) : Bool :=
  if t < 1 / 255 then false
  else if fg0 ≠ fg1 then true
  else if bg0 ≠ bg1 then true
  else false

/-- Column-major 4x4 matrix with rational entries, indexed as in the C
double[16] arrays of scm-render.cpp. -/
def Mat16 : Type := Fin 16 → ℚ

instance : DecidableEq Mat16 :=
  fun M N => by unfold Mat16; infer_instance

/-- Entry (i, j) of the column-major product P * M, as computed by math3d
mmultiply: T[4j+i] = sum over k of P[4k+i] * M[4j+k]. -/
def mmulEntry (P M : Mat16) (i j : Fin 4) : ℚ :=
  P ⟨4 * 0 + i.val, by omega⟩ * M ⟨4 * j.val + 0, by omega⟩ +
  P ⟨4 * 1 + i.val, by omega⟩ * M ⟨4 * j.val + 1, by omega⟩ +
  P ⟨4 * 2 + i.val, by omega⟩ * M ⟨4 * j.val + 2, by omega⟩ +
  P ⟨4 * 3 + i.val, by omega⟩ * M ⟨4 * j.val + 3, by omega⟩

/-- Column-major 4x4 matrix product used by scm_render::check_blur
(line 523, mmultiply(T, P, M)). -/
def mmultiply (P M : Mat16) : Mat16 :=
  fun idx => mmulEntry P M ⟨idx.val % 4, Nat.mod_lt _ (by omega)⟩
                           ⟨idx.val / 4, by omega⟩

/-- Blur test of scm_render::check_blur (lines 512-555), restricted to its
boolean result: true exactly when the blur degree is nonzero and the current
view-projection product P * M differs from the stored previous transform S. -/
def check_blur (blur : ℕ) (P M S : Mat16) : Bool :=
  if blur ≠ 0 then
    if mmultiply P M ≠ S then true else false
  else false

/-- The four composite render paths of scm_render::render
(scm-render.cpp lines 119-174). -/
inductive RenderPath where
  | plain : RenderPath
  | fadePath : RenderPath
  | blurPath : RenderPath
  | bothPath : RenderPath
deriving DecidableEq

/-- Path selection of scm_render::render (lines 119, 157-174): the direct
path when neither fade nor blur applies, otherwise the shader chosen by the
if / else-if chain over (do_fade, do_blur). -/
def render_dispatch (do_fade do_blur : Bool) : RenderPath :=
  if !do_fade && !do_blur then .plain
  else if do_fade && do_blur then .bothPath
  else if do_fade && !do_blur then .fadePath
  else .blurPath

/-- Composite render path executed by one scm_render::render call, with the
two checks evaluated once at the start of the call (lines 115-117). -/
def scm_render_path (fg0 fg1 bg0 bg1 : ℕ) (t : ℚ) (blur : ℕ)
    (P M S : Mat16) : RenderPath :=
  render_dispatch (check_fade fg0 fg1 bg0 bg1 t) (check_blur blur P M S)

/-! ## Cache controller model

The implementation file scm-cache.cpp is not part of the source snapshot;
only its header scm-cache.hpp is. The operations below are therefore
modelled from the specification (sections 3, 4.1, 4.3), keyed to the header
members they implement. -/

/-- Modelled from the spec: PageKey (§3), the cache key of scm_cache's page
sets — (fileId, pageIndex), equality structural. scm-cache.cpp is missing
from the snapshot. -/
abbrev PageKey : Type := ℤ × ℤ

/-- Modelled from the spec: the observable state of one scm_cache
(scm-cache.hpp lines 66-79; scm-cache.cpp missing). `active` is the page
set `pages` (key, slot, age), `waits` the set of in-flight pages
(key, reserved slot), `needs` and `loads` the two task queues, and
`texture`, `s`, `n` the atlas texture handle, grid size and page size. -/
structure CacheState where
  active : List (PageKey × ℕ × ℤ)
  waits : List (PageKey × ℕ)
  needs : List (PageKey × ℕ)
  loads : List (PageKey × ℕ × Bool)
  texture : ℕ
  s : ℕ
  n : ℕ

/-- Modelled from the spec: queue capacities and per-update upload bound
(§6 configuration; in scm-cache.hpp these are the constants 32, 8, 2, but
the model keeps them parameters so that capacity statements are generic). -/
structure CacheConfig where
  needCap : ℕ
  loadCap : ℕ
  maxLoads : ℕ

/-- First active-set entry for a key: its (slot, age), if present. -/
def lookA (k : PageKey) : List (PageKey × ℕ × ℤ) → Option (ℕ × ℤ)
  | [] => none
  | e :: es => if e.1 = k then some e.2 else lookA k es

/-- Re-stamp the age of a key's active entries to the current frame. -/
def stampA (k : PageKey) (f : ℤ) : List (PageKey × ℕ × ℤ) →
    List (PageKey × ℕ × ℤ)
  | [] => []
  | e :: es => (if e.1 = k then (e.1, e.2.1, f) else e) :: stampA k f es

/-- First waiting-set entry for a key: its reserved slot, if present. -/
def lookW (k : PageKey) : List (PageKey × ℕ) → Option ℕ
  | [] => none
  | e :: es => if e.1 = k then some e.2 else lookW k es

/-- Remove a key's entries from the waiting set. -/
def rmW (k : PageKey) : List (PageKey × ℕ) → List (PageKey × ℕ)
  | [] => []
  | e :: es => if e.1 = k then rmW k es else e :: rmW k es

/-- Remove a key's entries from the active set. -/
def rmA (k : PageKey) : List (PageKey × ℕ × ℤ) → List (PageKey × ℕ × ℤ)
  | [] => []
  | e :: es => if e.1 = k then rmA k es else e :: rmA k es

/-- Keys of the active set. -/
def activeKeys (st : CacheState) : List PageKey :=
  st.active.map fun e => e.1

/-- Keys of the waiting set. -/
def waitKeys (st : CacheState) : List PageKey :=
  st.waits.map fun e => e.1

/-- Slot indices owned by either page set, active first. -/
def usedSlots (st : CacheState) : List ℕ :=
  (st.active.map fun e => e.2.1) ++ (st.waits.map fun e => e.2)

/-- Number of occupied (active plus waiting) slots. -/
def usedCount (st : CacheState) : ℕ :=
  st.active.length + st.waits.length

/-- Lowest free slot of the S x S atlas, if any. -/
def leastFree (st : CacheState) : Option ℕ :=
  (List.range (st.s * st.s)).find? fun i => decide (i ∉ usedSlots st)

/-- Modelled from the spec: scm_cache::get_page (scm-cache.hpp line 41,
implementation missing), the lookup contract of §4.1: active hit re-stamps
the age and returns (slot, previous age); a waiting key returns the
"not yet available" sentinel; a cold miss reserves the lowest free slot and
enqueues a task on `needs` when the queue has room, and otherwise returns
the sentinel with no side effects. -/
def get_page (cfg : CacheConfig) (k : PageKey) (f : ℤ) (st : CacheState) :
    Option (ℕ × ℤ) × CacheState :=
  match lookA k st.active with
  | some r => (some r, { st with active := stampA k f st.active })
  | none =>
    match lookW k st.waits with
    | some _ => (none, st)
    | none =>
      match leastFree st with
      | none => (none, st)
      | some sl =>
        if st.needs.length < cfg.needCap then
          (none, { st with waits := (k, sl) :: st.waits,
                           needs := st.needs ++ [(k, sl)] })
        else (none, st)

/-- Modelled from the spec: one loader-thread step (§4.5, loader in
scm-cache.cpp missing): pop a task from `needs`, perform the read with the
given found flag, and push the completed task to `loads` (bounded). -/
def workerStep (cfg : CacheConfig) (found : Bool) (st : CacheState) :
    CacheState :=
  match st.needs with
  | [] => st
  | tk :: rest =>
    if st.loads.length < cfg.loadCap then
      { st with needs := rest, loads := st.loads ++ [(tk.1, tk.2, found)] }
    else st

/-- Modelled from the spec: handling of one completed task inside
scm_cache::update (§4.1 step 2): a not-found task releases the reserved
slot back to Free by dropping the waiting entry; a found task moves the
entry from waiting to active with age stamped to the calling frame. -/
def procTask (f : ℤ) (st : CacheState) (tk : PageKey × ℕ × Bool) :
    CacheState :=
  match lookW tk.1 st.waits with
  | none => st
  | some sl =>
    { st with waits := rmW tk.1 st.waits,
              active := if tk.2.2 then (tk.1, sl, f) :: st.active
                        else st.active }

/-- The better of two eviction candidates: lower age wins, ties break by
lower slot index (§4.1 step 3). -/
def betterVictim (a b : PageKey × ℕ × ℤ) : PageKey × ℕ × ℤ :=
  if b.2.2 < a.2.2 ∨ (b.2.2 = a.2.2 ∧ b.2.1 < a.2.1) then b else a

/-- Modelled from the spec: eviction victim selection (§4.1 step 3):
the least-recently-touched active entry not touched this frame, ties broken
by lowest slot index; none when every active entry was touched this frame. -/
def evictVictim (f : ℤ) (A : List (PageKey × ℕ × ℤ)) :
    Option (PageKey × ℕ × ℤ) :=
  match A.filter fun e => decide (e.2.2 ≠ f) with
  | [] => none
  | c :: cs => some (cs.foldl betterVictim c)

/-- Eviction phase of scm_cache::update (§4.1 step 3): when eviction is
allowed and the occupied count has reached capacity, demote the selected
victim's entry to Free. -/
def updEvict (f : ℤ) (ev : Bool) (st1 : CacheState) : CacheState :=
  if ev && decide (st1.s * st1.s ≤ usedCount st1) then
    match evictVictim f st1.active with
    | none => st1
    | some v => { st1 with active := rmA v.1 st1.active }
  else st1

/-- Modelled from the spec: scm_cache::update (scm-cache.hpp line 55,
implementation missing; §4.1): pop at most maxLoads completed tasks from
`loads` and process each, then run the eviction phase. -/
def cache_update (cfg : CacheConfig) (f : ℤ) (ev : Bool) (st : CacheState) :
    CacheState :=
  updEvict f ev ((st.loads.take cfg.maxLoads).foldl (procTask f)
    { st with loads := st.loads.drop cfg.maxLoads })

/-- Modelled from the spec: scm_cache::flush (scm-cache.hpp line 57,
implementation missing; §4.1): drain and discard both queues and clear the
page sets to all-Free. -/
def cache_flush (st : CacheState) : CacheState :=
  { st with active := [], waits := [], needs := [], loads := [] }

/-- State after a successful cold-miss reservation (§4.1 step 3): the key
moves into the waiting set with its reserved slot and the task is appended
to the needs queue. -/
def pushState (st : CacheState) (k : PageKey) (sl : ℕ) : CacheState :=
  { st with waits := (k, sl) :: st.waits, needs := st.needs ++ [(k, sl)] }

/-- One cache operation issued by the GPU-owning thread, or one worker
step. The worker's found flag and update's completed-task contents model
the external reader's found / not-found outcomes. -/
inductive CacheOp where
  | look (k : PageKey) (f : ℤ) : CacheOp
  | work (found : Bool) : CacheOp
  | upd (f : ℤ) (ev : Bool) : CacheOp
  | flushOp : CacheOp

/-- Apply one cache operation. -/
def applyOp (cfg : CacheConfig) (op : CacheOp) (st : CacheState) :
    CacheState :=
  match op with
  | .look k f => (get_page cfg k f st).2
  | .work found => workerStep cfg found st
  | .upd f ev => cache_update cfg f ev st
  | .flushOp => cache_flush st

/-- Run a sequence of cache operations. -/
def runOps (cfg : CacheConfig) (ops : List CacheOp) (st : CacheState) :
    CacheState :=
  ops.foldl (fun s o => applyOp cfg o s) st

/-- Freshly constructed cache: both page sets and both queues empty. -/
def initCache (tex s n : ℕ) : CacheState :=
  { active := [], waits := [], needs := [], loads := [],
    texture := tex, s := s, n := n }

/-- Page-set invariant of §3: each key appears at most once across the
active and waiting sets, each slot is owned by at most one entry across
both sets, and every owned slot lies inside the S x S atlas. -/
def CacheInv (st : CacheState) : Prop :=
  (activeKeys st ++ waitKeys st).Nodup ∧
  (usedSlots st).Nodup ∧
  ∀ x ∈ usedSlots st, x < st.s * st.s

instance (st : CacheState) : Decidable (CacheInv st) := by
  unfold CacheInv; infer_instance

/-- Observable state of one PageKey (§4.1 state machine). -/
inductive PState where
  | absent : PState
  | waiting : PState
  | activeS : PState
deriving DecidableEq

/-- Observable state of a key: Active wins over Waiting, else Absent. -/
def pstate (st : CacheState) (k : PageKey) : PState :=
  if k ∈ activeKeys st then .activeS
  else if k ∈ waitKeys st then .waiting
  else .absent

/-- Transition relation of the §4.1 per-key state machine: stay, or one of
Absent to Waiting, Waiting to Active, Active to Absent, Waiting to Absent. -/
def AllowedStep (p q : PState) : Prop :=
  p = q ∨ (p = .absent ∧ q = .waiting) ∨ (p = .waiting ∧ q = .activeS) ∨
  (p = .activeS ∧ q = .absent) ∨ (p = .waiting ∧ q = .absent)

/-! ## Image binding over the cache state (scm-image.cpp bind) -/

/-- Accessor scm_cache::get_texture (scm-cache.hpp line 43): returns the
atlas texture handle and leaves the state untouched. -/
def cache_get_texture (st : CacheState) : ℕ × CacheState :=
  (st.texture, st)

/-- Accessor scm_cache::get_grid_size (scm-cache.hpp line 44). -/
def cache_get_grid_size (st : CacheState) : ℕ × CacheState :=
  (st.s, st)

/-- Accessor scm_cache::get_page_size (scm-cache.hpp line 45). -/
def cache_get_page_size (st : CacheState) : ℕ × CacheState :=
  (st.n, st)

/-- Fields of scm_image (scm-image.cpp constructor): uniform-name identity,
file id, channel, height flag and the normalization constants k0, k1. -/
structure ScmImage where
  name : ℕ
  file : ℤ
  chan : ℤ
  height : Bool
  k0 : ℚ
  k1 : ℚ

/-- GL outputs of scm_image::bind (scm-image.cpp lines 34-52): the k0, k1
and sampler-unit uniforms, the border-scale uniform r (both components
n/(n+2)/s), and the texture handle bound to the active unit. -/
structure BindOut where
  uk0 : ℚ
  uk1 : ℚ
  uS : ℤ
  ur : ℚ × ℚ
  boundTexture : ℕ

/-- scm_image::bind (scm-image.cpp lines 34-52): reads the grid size, page
size and texture handle through the three accessors, computes the uniform
values, and binds the atlas texture; the cache state is threaded through
every accessor call. -/
def scm_image_bind (img : ScmImage) (unit : ℤ) (st : CacheState) :
    BindOut × CacheState :=
  let rs := cache_get_grid_size st
  let rn := cache_get_page_size rs.2
  let rt := cache_get_texture rn.2
  ({ uk0 := img.k0
     uk1 := img.k1
     uS := unit
     ur := (((rn.1 : ℚ) / ((rn.1 : ℚ) + 2)) / (rs.1 : ℚ),
            ((rn.1 : ℚ) / ((rn.1 : ℚ) + 2)) / (rs.1 : ℚ))
     boundTexture := rt.1 }, rt.2)

/-! ## Viewer state: scm-state.cpp

scm-state.cpp relies on the vector/quaternion primitives of
util3d/math3d.h, which is not part of the source snapshot. Those
primitives are modelled below with their standard mathematical meanings,
with doubles idealized as reals; each modelled primitive says so in its
doc comment. The invariant theorems depend only on the final
normalization steps, which the sources of scm-state.cpp show directly. -/

namespace State

/-- Three-component double vector of math3d. -/
structure V3 where
  x : ℝ
  y : ℝ
  z : ℝ

/-- Quaternion of math3d, scalar part stored last, as in scm-state.cpp
where orientation[3] = 1 is the identity (line 53). -/
structure Q4 where
  x : ℝ
  y : ℝ
  z : ℝ
  w : ℝ

/-- Squared Euclidean length of a vector. -/
noncomputable def quad3 (v : V3) : ℝ :=
  v.x ^ 2 + v.y ^ 2 + v.z ^ 2

/-- Squared Euclidean length of a quaternion. -/
noncomputable def quad4 (q : Q4) : ℝ :=
  q.x ^ 2 + q.y ^ 2 + q.z ^ 2 + q.w ^ 2

/-- Modelled from the spec: math3d vlen (source missing) — the Euclidean
length of a vector. -/
noncomputable def vlen (v : V3) : ℝ :=
  Real.sqrt (quad3 v)

/-- Modelled from the spec: math3d vnormalize (source missing) — v / |v|. -/
noncomputable def vnormalize (v : V3) : V3 :=
  ⟨v.x / vlen v, v.y / vlen v, v.z / vlen v⟩

/-- Length of a quaternion. -/
noncomputable def qlen (q : Q4) : ℝ :=
  Real.sqrt (quad4 q)

/-- Modelled from the spec: math3d qnormalize (source missing) — q / |q|. -/
noncomputable def qnormalize (q : Q4) : Q4 :=
  ⟨q.x / qlen q, q.y / qlen q, q.z / qlen q, q.w / qlen q⟩

/-- Modelled from the spec: math3d quaternion product (source missing),
Hamilton product with the scalar part last. -/
noncomputable def qmul (a b : Q4) : Q4 :=
  ⟨a.w * b.x + a.x * b.w + a.y * b.z - a.z * b.y,
   a.w * b.y - a.x * b.z + a.y * b.w + a.z * b.x,
   a.w * b.z + a.x * b.y - a.y * b.x + a.z * b.w,
   a.w * b.w - a.x * b.x - a.y * b.y - a.z * b.z⟩

/-- Rotation by angle t about the x axis, as a quaternion. -/
noncomputable def qrotx (t : ℝ) : Q4 :=
  ⟨Real.sin (t / 2), 0, 0, Real.cos (t / 2)⟩

/-- Rotation by angle t about the y axis, as a quaternion. -/
noncomputable def qroty (t : ℝ) : Q4 :=
  ⟨0, Real.sin (t / 2), 0, Real.cos (t / 2)⟩

/-- Rotation by angle t about the z axis, as a quaternion. -/
noncomputable def qrotz (t : ℝ) : Q4 :=
  ⟨0, 0, Real.sin (t / 2), Real.cos (t / 2)⟩

/-- Modelled from the spec: math3d qeuler (source missing) — quaternion
from Euler angles, as the composition of the three axis rotations (the
exact axis order is a modelling choice; any order composes unit
quaternions). -/
noncomputable def qeuler (r : V3) : Q4 :=
  qmul (qroty r.y) (qmul (qrotx r.x) (qrotz r.z))

/-- Dot product of quaternions. -/
noncomputable def qdot (a b : Q4) : ℝ :=
  a.x * b.x + a.y * b.y + a.z * b.z + a.w * b.w

/-- Negation of a quaternion. -/
noncomputable def qneg (q : Q4) : Q4 :=
  ⟨-q.x, -q.y, -q.z, -q.w⟩

/-- Modelled from the spec: math3d qsign (source missing) — flip q to the
hemisphere of the reference quaternion a. -/
noncomputable def qsign (a q : Q4) : Q4 :=
  if qdot a q < 0 then qneg q else q

/-- Modelled from the spec: math3d lerp (source missing) — linear
interpolation. -/
noncomputable def lerp (a b t : ℝ) : ℝ :=
  a + (b - a) * t

/-- Hermite interpolation of scm-state.cpp lines 24-42, embedded verbatim. -/
noncomputable def hermite (a b c d t tension bias : ℝ) : ℝ :=
  let e := (b - a) * (1 + bias) * (1 - tension) / 2 +
           (c - b) * (1 - bias) * (1 - tension) / 2
  let f := (c - b) * (1 + bias) * (1 - tension) / 2 +
           (d - c) * (1 - bias) * (1 - tension) / 2
  let t2 := t * t
  let t3 := t * t2
  let x0 := 2 * t3 - 3 * t2 + 1
  let x1 := t3 - 2 * t2 + t
  let x2 := t3 - t2
  let x3 := -2 * t3 + 3 * t2
  x0 * b + x1 * e + x2 * f + x3 * c

/-- Modelled from the spec: math3d vslerp (source missing) — spherical
linear interpolation of vectors. -/
noncomputable def vslerp (a b : V3) (t : ℝ) : V3 :=
  let om := Real.arccos (a.x * b.x + a.y * b.y + a.z * b.z)
  let d := Real.sin om
  ⟨(Real.sin ((1 - t) * om) * a.x + Real.sin (t * om) * b.x) / d,
   (Real.sin ((1 - t) * om) * a.y + Real.sin (t * om) * b.y) / d,
   (Real.sin ((1 - t) * om) * a.z + Real.sin (t * om) * b.z) / d⟩

/-- Modelled from the spec: math3d qslerp (source missing) — spherical
linear interpolation of quaternions. -/
noncomputable def qslerp (a b : Q4) (t : ℝ) : Q4 :=
  let om := Real.arccos (qdot a b)
  let d := Real.sin om
  ⟨(Real.sin ((1 - t) * om) * a.x + Real.sin (t * om) * b.x) / d,
   (Real.sin ((1 - t) * om) * a.y + Real.sin (t * om) * b.y) / d,
   (Real.sin ((1 - t) * om) * a.z + Real.sin (t * om) * b.z) / d,
   (Real.sin ((1 - t) * om) * a.w + Real.sin (t * om) * b.w) / d⟩

/-- Modelled from the spec: math3d vcrs (source missing) — cross product. -/
noncomputable def vcrs (a b : V3) : V3 :=
  ⟨a.y * b.z - a.z * b.y, a.z * b.x - a.x * b.z, a.x * b.y - a.y * b.x⟩

/-- X column of the rotation matrix of a quaternion (math3d vquaternionx,
source missing; standard formula). -/
noncomputable def vquaternionx (q : Q4) : V3 :=
  ⟨1 - 2 * (q.y ^ 2 + q.z ^ 2), 2 * (q.x * q.y + q.z * q.w),
   2 * (q.x * q.z - q.y * q.w)⟩

/-- Y column of the rotation matrix of a quaternion (math3d vquaterniony,
source missing; standard formula). -/
noncomputable def vquaterniony (q : Q4) : V3 :=
  ⟨2 * (q.x * q.y - q.z * q.w), 1 - 2 * (q.x ^ 2 + q.z ^ 2),
   2 * (q.y * q.z + q.x * q.w)⟩

/-- Z column of the rotation matrix of a quaternion (math3d vquaternionz,
source missing; standard formula). -/
noncomputable def vquaternionz (q : Q4) : V3 :=
  ⟨2 * (q.x * q.z + q.y * q.w), 2 * (q.y * q.z - q.x * q.w),
   1 - 2 * (q.x ^ 2 + q.y ^ 2)⟩

/-- Column-major 4x4 matrix from three basis columns; rotation part only,
translation zero, homogeneous corner 1. -/
noncomputable def mkMat (c0 c1 c2 : V3) : Fin 16 → ℝ := fun i =>
  if i = 0 then c0.x else if i = 1 then c0.y else if i = 2 then c0.z
  else if i = 4 then c1.x else if i = 5 then c1.y else if i = 6 then c1.z
  else if i = 8 then c2.x else if i = 9 then c2.y else if i = 10 then c2.z
  else if i = 15 then 1 else 0

/-- Modelled from the spec: math3d mquaternion (source missing) — rotation
matrix of a quaternion. -/
noncomputable def mquaternion (q : Q4) : Fin 16 → ℝ :=
  mkMat (vquaternionx q) (vquaterniony q) (vquaternionz q)

/-- Modelled from the spec: math3d mbasis (source missing) — matrix with
the given right, up and back columns. -/
noncomputable def mbasis (r u b : V3) : Fin 16 → ℝ :=
  mkMat r u b

/-- Modelled from the spec: math3d mrotate (source missing) — Rodrigues
rotation matrix about axis v by angle t. -/
noncomputable def mrotate (v : V3) (t : ℝ) : Fin 16 → ℝ :=
  let c := Real.cos t
  let s := Real.sin t
  mkMat
    ⟨v.x * v.x * (1 - c) + c, v.x * v.y * (1 - c) + v.z * s,
     v.x * v.z * (1 - c) - v.y * s⟩
    ⟨v.x * v.y * (1 - c) - v.z * s, v.y * v.y * (1 - c) + c,
     v.y * v.z * (1 - c) + v.x * s⟩
    ⟨v.x * v.z * (1 - c) + v.y * s, v.y * v.z * (1 - c) - v.x * s,
     v.z * v.z * (1 - c) + c⟩

/-- Modelled from the spec: math3d vtransform (source missing) — apply a
column-major matrix to a point, translation included. -/
noncomputable def vtransform (M : Fin 16 → ℝ) (v : V3) : V3 :=
  ⟨M 0 * v.x + M 4 * v.y + M 8 * v.z + M 12,
   M 1 * v.x + M 5 * v.y + M 9 * v.z + M 13,
   M 2 * v.x + M 6 * v.y + M 10 * v.z + M 14⟩

/-- Modelled from the spec: math3d mmultiply (source missing) — column
major 4x4 matrix product, entry (i, j) of P * M. -/
noncomputable def mmultiply (P M : Fin 16 → ℝ) : Fin 16 → ℝ := fun idx =>
  let i := idx.val % 4
  let j := idx.val / 4
  P ⟨4 * 0 + i, by omega⟩ * M ⟨4 * j + 0, by omega⟩ +
  P ⟨4 * 1 + i, by omega⟩ * M ⟨4 * j + 1, by omega⟩ +
  P ⟨4 * 2 + i, by omega⟩ * M ⟨4 * j + 2, by omega⟩ +
  P ⟨4 * 3 + i, by omega⟩ * M ⟨4 * j + 3, by omega⟩

/-- Modelled from the spec: math3d qmatrix (source missing) — quaternion
of a rotation matrix, standard trace formula. -/
noncomputable def qmatrix (M : Fin 16 → ℝ) : Q4 :=
  let w := Real.sqrt (1 + M 0 + M 5 + M 10) / 2
  ⟨(M 6 - M 9) / (4 * w), (M 8 - M 2) / (4 * w), (M 1 - M 4) / (4 * w), w⟩

/-- Modelled from the spec: the third column of math3d meuler's rotation
matrix (source missing), which scm_state's camera constructor normalizes
into the light direction (scm-state.cpp line 194, M + 8). -/
noncomputable def meuler_z (r : V3) : V3 :=
  vquaternionz (qeuler r)

/-- Fields of scm_state (scm-state.hpp data members as used by
scm-state.cpp). -/
structure SState where
  orientation : Q4
  position : V3
  light : V3
  name : String
  foreground : String
  background : String
  speed : ℝ
  distance : ℝ
  tension : ℝ
  bias : ℝ
  zoom : ℝ

/-- Default constructor scm_state::scm_state() (scm-state.cpp lines 48-70):
identity orientation, unit z position, light = vnormalize (0, 2, 1). -/
noncomputable def ctorDefault : SState :=
  { orientation := ⟨0, 0, 0, 1⟩
    position := ⟨0, 0, 1⟩
    light := vnormalize ⟨0, 2, 1⟩
    name := ""
    foreground := ""
    background := ""
    speed := 1
    distance := 0
    tension := 0
    bias := 0
    zoom := 1 }

/-- Copy constructor scm_state::scm_state(const scm_state *) (lines 74-88):
copies every field. -/
noncomputable def ctorCopy (a : SState) : SState :=
  a

/-- Interpolating constructor scm_state::scm_state(a, b, t)
(lines 92-110): slerp of orientation, position and light, lerp of the
scalars, then all three normalized. -/
noncomputable def ctorLerp (a b : SState) (t : ℝ) : SState :=
  { orientation := qnormalize (qslerp a.orientation b.orientation t)
    position := vnormalize (vslerp a.position b.position t)
    light := vnormalize (vslerp a.light b.light t)
    name := ""
    foreground := ""
    background := ""
    speed := lerp a.speed b.speed t
    distance := lerp a.distance b.distance t
    tension := lerp a.tension b.tension t
    bias := lerp a.bias b.bias t
    zoom := lerp a.zoom b.zoom t }

/-- Componentwise Hermite interpolation of quaternions. -/
noncomputable def hermiteQ (A B C D : Q4) (t tn bs : ℝ) : Q4 :=
  ⟨hermite A.x B.x C.x D.x t tn bs, hermite A.y B.y C.y D.y t tn bs,
   hermite A.z B.z C.z D.z t tn bs, hermite A.w B.w C.w D.w t tn bs⟩

/-- Componentwise Hermite interpolation of vectors. -/
noncomputable def hermiteV (A B C D : V3) (t tn bs : ℝ) : V3 :=
  ⟨hermite A.x B.x C.x D.x t tn bs, hermite A.y B.y C.y D.y t tn bs,
   hermite A.z B.z C.z D.z t tn bs⟩

/-- Pre-normalization orientation of the cubic constructor (lines 129-137):
Hermite interpolation of the qsign-aligned source orientations. -/
noncomputable def hermiteOrientationRaw (a b c d : SState) (t : ℝ) : Q4 :=
  let A := a.orientation
  let B := qsign A b.orientation
  let C := qsign B c.orientation
  let D := qsign C d.orientation
  hermiteQ A B C D t b.tension b.bias

/-- Pre-normalization position of the cubic constructor (lines 139-150). -/
noncomputable def hermitePositionRaw (a b c d : SState) (t : ℝ) : V3 :=
  hermiteV a.position b.position c.position d.position t b.tension b.bias

/-- Pre-normalization light of the cubic constructor (lines 152-163). -/
noncomputable def hermiteLightRaw (a b c d : SState) (t : ℝ) : V3 :=
  hermiteV a.light b.light c.light d.light t b.tension b.bias

/-- Cubic constructor scm_state::scm_state(a, b, c, d, t)
(lines 114-178): Hermite interpolation then normalization of orientation,
position and light; Hermite distance; lerp of the remaining scalars. -/
noncomputable def ctorHermite (a b c d : SState) (t : ℝ) : SState :=
  { orientation := qnormalize (hermiteOrientationRaw a b c d t)
    position := vnormalize (hermitePositionRaw a b c d t)
    light := vnormalize (hermiteLightRaw a b c d t)
    name := ""
    foreground := ""
    background := ""
    distance := hermite a.distance b.distance c.distance d.distance t
      b.tension b.bias
    speed := lerp b.speed c.speed t
    tension := lerp b.tension c.tension t
    bias := lerp b.bias c.bias t
    zoom := lerp b.zoom c.zoom t }

/-- Camera constructor scm_state::scm_state(t, r, l) (lines 187-202):
orientation from Euler angles, position = vnormalize t, light = the
normalized z column of the light's Euler matrix, distance = |t|. -/
noncomputable def ctorCam (t r l : V3) : SState :=
  { orientation := qeuler r
    position := vnormalize t
    light := vnormalize (meuler_z l)
    name := ""
    foreground := ""
    background := ""
    speed := 1
    distance := vlen t
    tension := 0
    bias := 0
    zoom := 1 }

/-- Rotation basis built by scm_state::set_pitch (lines 372-398): pitch the
position direction about the corrected right vector and rebuild an
orthogonal basis. -/
noncomputable def pitchMatrix (s : SState) (a : ℝ) : Fin 16 → ℝ :=
  let p := vnormalize s.position
  let r0 := vquaternionx s.orientation
  let b0 := vnormalize (vcrs r0 p)
  let r := vcrs p b0
  let R := mrotate r a
  let u := vnormalize (vtransform R p)
  let b := vnormalize (vcrs r u)
  mbasis r u b

/-- scm_state::set_pitch (lines 372-404): convert the rebuilt basis to a
quaternion and normalize it into the orientation. -/
noncomputable def set_pitch (s : SState) (a : ℝ) : SState :=
  { s with orientation := qnormalize (qmatrix (pitchMatrix s a)) }

/-- Pre-normalization orientation of scm_state::transform_orientation
(lines 422-431): quaternion of M times the orientation's matrix. -/
noncomputable def transformOrientationRaw (M : Fin 16 → ℝ) (s : SState) :
    Q4 :=
  qmatrix (mmultiply M (mquaternion s.orientation))

/-- One scm_state constructor or normalizing mutator of scm-state.cpp. -/
inductive SOp where
  | ctorDefaultOp : SOp
  | ctorCopyOp (a : SState) : SOp
  | ctorLerpOp (a b : SState) (t : ℝ) : SOp
  | ctorHermiteOp (a b c d : SState) (t : ℝ) : SOp
  | ctorCamOp (t r l : V3) : SOp
  | setOrientationOp (q : Q4) : SOp
  | setPositionOp (v : V3) : SOp
  | setLightOp (v : V3) : SOp
  | setPitchOp (a : ℝ) : SOp
  | transformOrientationOp (M : Fin 16 → ℝ) : SOp
  | transformPositionOp (M : Fin 16 → ℝ) : SOp
  | transformLightOp (M : Fin 16 → ℝ) : SOp

/-- Apply one constructor (ignoring the current state) or mutator
(updating the current state), following scm-state.cpp. -/
noncomputable def applySOp : SOp → SState → SState
  | .ctorDefaultOp, _ => ctorDefault
  | .ctorCopyOp a, _ => ctorCopy a
  | .ctorLerpOp a b t, _ => ctorLerp a b t
  | .ctorHermiteOp a b c d t, _ => ctorHermite a b c d t
  | .ctorCamOp t r l, _ => ctorCam t r l
  | .setOrientationOp q, s => { s with orientation := qnormalize q }
  | .setPositionOp v, s => { s with position := vnormalize v }
  | .setLightOp v, s => { s with light := vnormalize v }
  | .setPitchOp a, s => set_pitch s a
  | .transformOrientationOp M, s =>
      { s with orientation := qnormalize (transformOrientationRaw M s) }
  | .transformPositionOp M, s =>
      { s with position := vnormalize (vtransform M s.position) }
  | .transformLightOp M, s =>
      { s with light := vnormalize (vtransform M s.light) }

/-- The scm_state invariant: unit orientation quaternion, unit position
and unit light direction (stated through squared lengths). -/
def unitState (s : SState) : Prop :=
  quad4 s.orientation = 1 ∧ quad3 s.position = 1 ∧ quad3 s.light = 1

/-- Nonzero-input conditions of each operation: the value each final
normalization divides by must be nonzero, and mutators receive a state
already satisfying the invariant (their untouched fields carry over). -/
noncomputable def sideCond : SOp → SState → Prop
  | .ctorDefaultOp, _ => True
  | .ctorCopyOp a, _ => unitState a
  | .ctorLerpOp a b t, _ =>
      quad4 (qslerp a.orientation b.orientation t) ≠ 0 ∧
      quad3 (vslerp a.position b.position t) ≠ 0 ∧
      quad3 (vslerp a.light b.light t) ≠ 0
  | .ctorHermiteOp a b c d t, _ =>
      quad4 (hermiteOrientationRaw a b c d t) ≠ 0 ∧
      quad3 (hermitePositionRaw a b c d t) ≠ 0 ∧
      quad3 (hermiteLightRaw a b c d t) ≠ 0
  | .ctorCamOp t _ l, _ => quad3 t ≠ 0 ∧ quad3 (meuler_z l) ≠ 0
  | .setOrientationOp q, s => unitState s ∧ quad4 q ≠ 0
  | .setPositionOp v, s => unitState s ∧ quad3 v ≠ 0
  | .setLightOp v, s => unitState s ∧ quad3 v ≠ 0
  | .setPitchOp a, s =>
      unitState s ∧ quad4 (qmatrix (pitchMatrix s a)) ≠ 0
  | .transformOrientationOp M, s =>
      unitState s ∧ quad4 (transformOrientationRaw M s) ≠ 0
  | .transformPositionOp M, s =>
      unitState s ∧ quad3 (vtransform M s.position) ≠ 0
  | .transformLightOp M, s =>
      unitState s ∧ quad3 (vtransform M s.light) ≠ 0

/-- A throwaway base state handed to constructors, which ignore it. -/
def zeroState : SState :=
  ⟨⟨0, 0, 0, 1⟩, ⟨0, 0, 1⟩, ⟨0, 0, 1⟩, "", "", "", 1, 0, 0, 0, 1⟩

end State

/-! ## Theorems for claims C4, C5, C6, C8, C9 -/

/-- C4: for every bind_page call whose cache lookup returns a nonzero slot l
with previous age u at frame t, the fade uniform equals (t - u)/60 clamped
to [0, 1]: a saturating linear function of the raw age delta. -/
theorem bind_page_fade_is_clamped_linear (l : ℕ) (t u : ℤ) (h : l ≠ 0) :
    bind_page_a l t u = max 0 (min 1 (((t : ℚ) - (u : ℚ)) / 60)) := by
  unfold bind_page_a
  rw [if_neg h]
  split_ifs with h1 h2
  · rw [min_eq_left (le_of_lt h1), max_eq_right zero_le_one]
  · rw [min_eq_right (le_of_lt (lt_trans h2 zero_lt_one)),
        max_eq_left (le_of_lt h2)]
  · rw [min_eq_right (not_lt.mp h1), max_eq_right (not_lt.mp h2)]

/-- Witness for C4 at slot 1, frame 30, previous age 0. -/
theorem bind_page_fade_is_clamped_linear_witness :
    bind_page_a 1 30 0 = max 0 (min 1 (((30 : ℚ) - (0 : ℚ)) / 60)) :=
  bind_page_fade_is_clamped_linear 1 30 0 (by decide)

/-- C5 counterexample: the queue capacities and upload bound are not
per-instance values configured by construction; no two constructions,
however different their arguments, can differ in any of the three, because
they are class-level constants (scm-cache.hpp lines 61-63). -/
theorem cache_config_not_per_instance :
    ¬ ∃ a b : CacheCtorArgs,
      (scm_cache_ctor a).need_queue_size ≠ (scm_cache_ctor b).need_queue_size ∨
      (scm_cache_ctor a).load_queue_size ≠ (scm_cache_ctor b).load_queue_size ∨
      (scm_cache_ctor a).max_loads_per_update ≠
        (scm_cache_ctor b).max_loads_per_update := by
  rintro ⟨a, b, h | h | h⟩ <;> exact h rfl

/-- C5 amended: the needs queue capacity, loads queue capacity, and maximum
uploads per update call are class-wide compile-time constants (32, 8, 2),
identical for every constructed instance and immutable. -/
theorem cache_config_class_constants (a : CacheCtorArgs) :
    (scm_cache_ctor a).need_queue_size = 32 ∧
    (scm_cache_ctor a).load_queue_size = 8 ∧
    (scm_cache_ctor a).max_loads_per_update = 2 :=
  ⟨rfl, rfl, rfl⟩

/-- C6: every scm_render::render call executes exactly one of the four
composite paths, selected from check_fade and check_blur evaluated once:
the plain path exactly when both checks are false, and otherwise exactly
the fade, blur, or fade+blur program matching the two flags. -/
theorem render_path_dispatch (fg0 fg1 bg0 bg1 : ℕ) (t : ℚ) (blur : ℕ)
    (P M S : Mat16) :
    (scm_render_path fg0 fg1 bg0 bg1 t blur P M S = .plain ↔
      check_fade fg0 fg1 bg0 bg1 t = false ∧ check_blur blur P M S = false) ∧
    (scm_render_path fg0 fg1 bg0 bg1 t blur P M S = .fadePath ↔
      check_fade fg0 fg1 bg0 bg1 t = true ∧ check_blur blur P M S = false) ∧
    (scm_render_path fg0 fg1 bg0 bg1 t blur P M S = .blurPath ↔
      check_fade fg0 fg1 bg0 bg1 t = false ∧ check_blur blur P M S = true) ∧
    (scm_render_path fg0 fg1 bg0 bg1 t blur P M S = .bothPath ↔
      check_fade fg0 fg1 bg0 bg1 t = true ∧ check_blur blur P M S = true) := by
  unfold scm_render_path render_dispatch
  cases hf : check_fade fg0 fg1 bg0 bg1 t <;>
    cases hb : check_blur blur P M S <;> simp

/-- C8: whenever scm_cache::get_page returns the slot value 0, bind_page
uploads a blend factor of exactly 0, and its entire uniform output is
independent of the frame and age values, so a page resident in atlas slot 0
is indistinguishable from an unavailable page at the renderer interface. -/
theorem bind_page_slot_zero_sentinel (t u t' u' : ℤ) (s n : ℕ) :
    (bind_page_out 0 t u s n).1 = 0 ∧
    bind_page_out 0 t u s n = bind_page_out 0 t' u' s n := by
  constructor
  · simp [bind_page_out, bind_page_a]
  · simp [bind_page_out, bind_page_a]

/-- C9: get_page_sample applies the affine map v * (k1 - k0) + k0, while
get_page_bounds applies that map only to the lower bound; the upper bound
is computed as r1 * (k1 - k1) + k1 and therefore always equals k1,
regardless of the value r1 supplied by the cache. -/
theorem get_page_bounds_upper_constant (k0 k1 r0 r1 v : ℚ) :
    get_page_sample k0 k1 v = v * (k1 - k0) + k0 ∧
    (get_page_bounds k0 k1 r0 r1).1 = r0 * (k1 - k0) + k0 ∧
    (get_page_bounds k0 k1 r0 r1).2 = k1 := by
  refine ⟨rfl, rfl, ?_⟩
  simp [get_page_bounds]

/-! ## Basic lemmas on the page-set primitives -/

theorem lookA_isSome_iff (k : PageKey) (A : List (PageKey × ℕ × ℤ)) :
    (lookA k A).isSome = true ↔ k ∈ A.map (fun e => e.1) := by
  induction A with
  | nil => simp [lookA]
  | cons e es ih =>
    by_cases h : e.1 = k
    · simp [lookA, h]
    · simp [lookA, h, ih, Ne.symm h]

theorem lookW_isSome_iff (k : PageKey) (W : List (PageKey × ℕ)) :
    (lookW k W).isSome = true ↔ k ∈ W.map (fun e => e.1) := by
  induction W with
  | nil => simp [lookW]
  | cons e es ih =>
    by_cases h : e.1 = k
    · simp [lookW, h]
    · simp [lookW, h, ih, Ne.symm h]

theorem lookW_some_mem {k : PageKey} {sl : ℕ} {W : List (PageKey × ℕ)}
    (h : lookW k W = some sl) : (k, sl) ∈ W := by
  induction W with
  | nil => simp [lookW] at h
  | cons e es ih =>
    obtain ⟨a, b⟩ := e
    by_cases he : a = k
    · subst he
      rw [lookW, if_pos rfl] at h
      injection h with h
      subst h
      exact List.mem_cons_self _ _
    · rw [lookW, if_neg he] at h
      exact List.mem_cons_of_mem _ (ih h)

theorem rmW_sublist (k : PageKey) (W : List (PageKey × ℕ)) :
    List.Sublist (rmW k W) W := by
  induction W with
  | nil => simp [rmW]
  | cons e es ih =>
    by_cases h : e.1 = k
    · rw [rmW, if_pos h]; exact ih.cons e
    · rw [rmW, if_neg h]; exact ih.cons₂ e

theorem rmA_sublist (k : PageKey) (A : List (PageKey × ℕ × ℤ)) :
    List.Sublist (rmA k A) A := by
  induction A with
  | nil => simp [rmA]
  | cons e es ih =>
    by_cases h : e.1 = k
    · rw [rmA, if_pos h]; exact ih.cons e
    · rw [rmA, if_neg h]; exact ih.cons₂ e

theorem mem_rmW {x : PageKey × ℕ} {k : PageKey} {W : List (PageKey × ℕ)} :
    x ∈ rmW k W ↔ x ∈ W ∧ x.1 ≠ k := by
  induction W with
  | nil => simp [rmW]
  | cons e es ih =>
    by_cases h : e.1 = k
    · rw [rmW, if_pos h, ih]
      constructor
      · rintro ⟨hm, hne⟩
        exact ⟨List.mem_cons_of_mem _ hm, hne⟩
      · rintro ⟨hm, hne⟩
        rcases List.mem_cons.mp hm with rfl | hm
        · exact absurd h hne
        · exact ⟨hm, hne⟩
    · rw [rmW, if_neg h]
      constructor
      · intro hx
        rcases List.mem_cons.mp hx with rfl | hx
        · exact ⟨List.mem_cons_self _ _, h⟩
        · exact ⟨List.mem_cons_of_mem _ (ih.mp hx).1, (ih.mp hx).2⟩
      · rintro ⟨hm, hne⟩
        rcases List.mem_cons.mp hm with rfl | hm
        · exact List.mem_cons_self _ _
        · exact List.mem_cons_of_mem _ (ih.mpr ⟨hm, hne⟩)

theorem mem_rmA {x : PageKey × ℕ × ℤ} {k : PageKey}
    {A : List (PageKey × ℕ × ℤ)} :
    x ∈ rmA k A ↔ x ∈ A ∧ x.1 ≠ k := by
  induction A with
  | nil => simp [rmA]
  | cons e es ih =>
    by_cases h : e.1 = k
    · rw [rmA, if_pos h, ih]
      constructor
      · rintro ⟨hm, hne⟩
        exact ⟨List.mem_cons_of_mem _ hm, hne⟩
      · rintro ⟨hm, hne⟩
        rcases List.mem_cons.mp hm with rfl | hm
        · exact absurd h hne
        · exact ⟨hm, hne⟩
    · rw [rmA, if_neg h]
      constructor
      · intro hx
        rcases List.mem_cons.mp hx with rfl | hx
        · exact ⟨List.mem_cons_self _ _, h⟩
        · exact ⟨List.mem_cons_of_mem _ (ih.mp hx).1, (ih.mp hx).2⟩
      · rintro ⟨hm, hne⟩
        rcases List.mem_cons.mp hm with rfl | hm
        · exact List.mem_cons_self _ _
        · exact List.mem_cons_of_mem _ (ih.mpr ⟨hm, hne⟩)

theorem stampA_map_key (k : PageKey) (f : ℤ) (A : List (PageKey × ℕ × ℤ)) :
    (stampA k f A).map (fun e => e.1) = A.map (fun e => e.1) := by
  induction A with
  | nil => rfl
  | cons e es ih =>
    by_cases h : e.1 = k <;> simp [stampA, h, ih]

theorem stampA_map_slot (k : PageKey) (f : ℤ) (A : List (PageKey × ℕ × ℤ)) :
    (stampA k f A).map (fun e => e.2.1) = A.map (fun e => e.2.1) := by
  induction A with
  | nil => rfl
  | cons e es ih =>
    by_cases h : e.1 = k <;> simp [stampA, h, ih]

theorem stampA_length (k : PageKey) (f : ℤ) (A : List (PageKey × ℕ × ℤ)) :
    (stampA k f A).length = A.length := by
  induction A with
  | nil => rfl
  | cons e es ih =>
    by_cases h : e.1 = k <;> simp [stampA, h, ih]

/-! ## Theorem for claim C7 -/

/-- C7: binding the atlas for drawing mutates no cache state: the threaded
cache state comes back unchanged, and the GL output depends only on the
texture handle, grid size and page size, so the page sets and queues are
neither read nor written. -/
theorem bind_no_cache_mutation (img : ScmImage) (unit : ℤ)
    (st st' : CacheState) (ht : st.texture = st'.texture)
    (hs : st.s = st'.s) (hn : st.n = st'.n) :
    (scm_image_bind img unit st).2 = st ∧
    (scm_image_bind img unit st).1 = (scm_image_bind img unit st').1 := by
  constructor
  · rfl
  · simp [scm_image_bind, cache_get_grid_size, cache_get_page_size,
      cache_get_texture, ht, hs, hn]

/-- Witness for C7: two caches agreeing on texture, grid size and page size
but with different page sets produce identical bind output, and the first
cache comes back unchanged. -/
theorem bind_no_cache_mutation_witness :
    (scm_image_bind ⟨0, 0, 0, false, 0, 1⟩ 2 (initCache 3 4 5)).2 =
      initCache 3 4 5 ∧
    (scm_image_bind ⟨0, 0, 0, false, 0, 1⟩ 2 (initCache 3 4 5)).1 =
      (scm_image_bind ⟨0, 0, 0, false, 0, 1⟩ 2
        { initCache 3 4 5 with active := [(((0 : ℤ), (0 : ℤ)), 1, 2)] }).1 :=
  bind_no_cache_mutation ⟨0, 0, 0, false, 0, 1⟩ 2 (initCache 3 4 5)
    { initCache 3 4 5 with active := [(((0 : ℤ), (0 : ℤ)), 1, 2)] }
    rfl rfl rfl

theorem lookW_slot_not_mem_rmW {k : PageKey} {sl : ℕ}
    {W : List (PageKey × ℕ)} (hnd : (W.map fun e => e.2).Nodup)
    (h : lookW k W = some sl) :
    sl ∉ (rmW k W).map fun e => e.2 := by
  induction W with
  | nil => simp [lookW] at h
  | cons e es ih =>
    have hnd' : e.2 ∉ es.map (fun e => e.2) ∧ (es.map fun e => e.2).Nodup :=
      List.nodup_cons.mp (by simpa using hnd)
    by_cases he : e.1 = k
    · rw [lookW, if_pos he] at h
      injection h with h
      subst h
      rw [rmW, if_pos he]
      intro hc
      exact hnd'.1 (((rmW_sublist k es).map _).subset hc)
    · rw [lookW, if_neg he] at h
      rw [rmW, if_neg he]
      intro hc
      rw [List.map_cons] at hc
      rcases List.mem_cons.mp hc with h2 | h2
      · have hm : sl ∈ es.map fun e => e.2 :=
          List.mem_map.mpr ⟨(k, sl), lookW_some_mem h, rfl⟩
        rw [h2] at hm
        exact hnd'.1 hm
      · exact ih hnd'.2 h h2

/-! ## Invariant preservation (claim C1 machinery) -/

theorem cacheInv_get_page (cfg : CacheConfig) (k : PageKey) (f : ℤ)
    (st : CacheState) (h : CacheInv st) : CacheInv (get_page cfg k f st).2 := by
  obtain ⟨hk, hsl, hb⟩ := h
  rcases hA : lookA k st.active with _ | r
  · rcases hW : lookW k st.waits with _ | sl
    · rcases hF : leastFree st with _ | sl
      · simp only [get_page, hA, hW, hF]
        exact ⟨hk, hsl, hb⟩
      · by_cases hq : st.needs.length < cfg.needCap
        · simp only [get_page, hA, hW, hF, if_pos hq]
          have hkA : k ∉ activeKeys st := by
            intro hm
            have := (lookA_isSome_iff k st.active).mpr hm
            rw [hA] at this
            simp at this
          have hkW : k ∉ waitKeys st := by
            intro hm
            have := (lookW_isSome_iff k st.waits).mpr hm
            rw [hW] at this
            simp at this
          have hfree : sl ∉ usedSlots st := by
            have := List.find?_some hF
            simpa using this
          have hrange : sl < st.s * st.s := by
            have := List.mem_of_find?_eq_some hF
            simpa using this
          refine ⟨?_, ?_, ?_⟩
          · show (activeKeys st ++ k :: waitKeys st).Nodup
            rw [List.nodup_append] at hk ⊢
            obtain ⟨h1, h2, h3⟩ := hk
            refine ⟨h1, List.nodup_cons.mpr ⟨hkW, h2⟩, ?_⟩
            intro a ha hmem
            rcases List.mem_cons.mp hmem with rfl | hmem
            · exact hkA ha
            · exact h3 ha hmem
          · show ((st.active.map fun e => e.2.1) ++
                sl :: st.waits.map fun e => e.2).Nodup
            have hsl' : ((st.active.map fun e => e.2.1) ++
                st.waits.map fun e => e.2).Nodup := hsl
            rw [List.nodup_append] at hsl' ⊢
            obtain ⟨h1, h2, h3⟩ := hsl'
            have hfa : sl ∉ st.active.map fun e => e.2.1 := fun hm =>
              hfree (List.mem_append.mpr (Or.inl hm))
            have hfw : sl ∉ st.waits.map fun e => e.2 := fun hm =>
              hfree (List.mem_append.mpr (Or.inr hm))
            refine ⟨h1, List.nodup_cons.mpr ⟨hfw, h2⟩, ?_⟩
            intro a ha hmem
            rcases List.mem_cons.mp hmem with rfl | hmem
            · exact hfa ha
            · exact h3 ha hmem
          · intro x hx
            rcases List.mem_append.mp hx with hx | hx
            · exact hb x (List.mem_append.mpr (Or.inl hx))
            · rcases List.mem_cons.mp hx with rfl | hx
              · exact hrange
              · exact hb x (List.mem_append.mpr (Or.inr hx))
        · simp only [get_page, hA, hW, hF, if_neg hq]
          exact ⟨hk, hsl, hb⟩
    · simp only [get_page, hA, hW]
      exact ⟨hk, hsl, hb⟩
  · simp only [get_page, hA]
    refine ⟨?_, ?_, ?_⟩
    · show ((stampA k f st.active).map (fun e => e.1) ++ waitKeys st).Nodup
      rwa [stampA_map_key]
    · show ((stampA k f st.active).map (fun e => e.2.1) ++
          st.waits.map fun e => e.2).Nodup
      rwa [stampA_map_slot]
    · intro x hx
      apply hb x
      rcases List.mem_append.mp hx with hx | hx
      · rw [stampA_map_slot] at hx
        exact List.mem_append.mpr (Or.inl hx)
      · exact List.mem_append.mpr (Or.inr hx)

theorem cacheInv_workerStep (cfg : CacheConfig) (found : Bool)
    (st : CacheState) (h : CacheInv st) :
    CacheInv (workerStep cfg found st) := by
  unfold workerStep
  split
  · exact h
  · split
    · exact h
    · exact h

theorem cacheInv_procTask (f : ℤ) (st : CacheState) (tk : PageKey × ℕ × Bool)
    (h : CacheInv st) : CacheInv (procTask f st tk) := by
  obtain ⟨hk, hsl, hb⟩ := h
  rcases hW : lookW tk.1 st.waits with _ | sl
  · simp only [procTask, hW]
    exact ⟨hk, hsl, hb⟩
  · have hmem : (tk.1, sl) ∈ st.waits := lookW_some_mem hW
    have hkW : tk.1 ∈ waitKeys st := List.mem_map.mpr ⟨_, hmem, rfl⟩
    have hsW : sl ∈ st.waits.map (fun e => e.2) :=
      List.mem_map.mpr ⟨_, hmem, rfl⟩
    have hkrm : tk.1 ∉ (rmW tk.1 st.waits).map fun e => e.1 := by
      intro hm
      obtain ⟨w, hw, hw2⟩ := List.mem_map.mp hm
      exact (mem_rmW.mp hw).2 hw2
    have hsub : List.Sublist
        ((st.active.map fun e => e.1) ++ (rmW tk.1 st.waits).map fun e => e.1)
        (activeKeys st ++ waitKeys st) :=
      List.Sublist.append (List.Sublist.refl _) ((rmW_sublist _ _).map _)
    have hsubS : List.Sublist
        ((st.active.map fun e => e.2.1) ++ (rmW tk.1 st.waits).map fun e => e.2)
        (usedSlots st) :=
      List.Sublist.append (List.Sublist.refl _) ((rmW_sublist _ _).map _)
    have hbnd : ∀ x ∈ (st.active.map fun e => e.2.1) ++
        (rmW tk.1 st.waits).map fun e => e.2, x < st.s * st.s :=
      fun x hx => hb x (hsubS.subset hx)
    by_cases hf : tk.2.2 = true
    · simp only [procTask, hW, hf, if_true]
      have hkA : tk.1 ∉ activeKeys st := by
        rw [List.nodup_append] at hk
        exact fun hm => hk.2.2 hm hkW
      have hsl' : ((st.active.map fun e => e.2.1) ++
          st.waits.map fun e => e.2).Nodup := hsl
      rw [List.nodup_append] at hsl'
      have hsA : sl ∉ st.active.map fun e => e.2.1 :=
        fun hm => hsl'.2.2 hm hsW
      have hsrm : sl ∉ (rmW tk.1 st.waits).map fun e => e.2 :=
        lookW_slot_not_mem_rmW hsl'.2.1 hW
      refine ⟨?_, ?_, ?_⟩
      · show (((tk.1, sl, f) :: st.active).map (fun e => e.1) ++
            (rmW tk.1 st.waits).map fun e => e.1).Nodup
        rw [List.map_cons, List.cons_append, List.nodup_cons]
        refine ⟨?_, hk.sublist hsub⟩
        intro hm
        rcases List.mem_append.mp hm with hm | hm
        · exact hkA hm
        · exact hkrm hm
      · show (((tk.1, sl, f) :: st.active).map (fun e => e.2.1) ++
            (rmW tk.1 st.waits).map fun e => e.2).Nodup
        rw [List.map_cons, List.cons_append, List.nodup_cons]
        refine ⟨?_, hsl.sublist hsubS⟩
        intro hm
        rcases List.mem_append.mp hm with hm | hm
        · exact hsA hm
        · exact hsrm hm
      · intro x hx
        show x < st.s * st.s
        simp only [usedSlots, List.map_cons, List.cons_append] at hx
        rcases List.mem_cons.mp hx with rfl | hx
        · exact hb x (List.mem_append.mpr (Or.inr hsW))
        · exact hbnd x hx
    · simp only [procTask, hW, if_neg hf]
      exact ⟨hk.sublist hsub, hsl.sublist hsubS, hbnd⟩

theorem cacheInv_foldProc (f : ℤ) (ts : List (PageKey × ℕ × Bool)) :
    ∀ st : CacheState, CacheInv st → CacheInv (ts.foldl (procTask f) st) := by
  induction ts with
  | nil => exact fun st h => h
  | cons t ts ih => exact fun st h => ih _ (cacheInv_procTask f st t h)

theorem cacheInv_rmA (k : PageKey) (st : CacheState) (h : CacheInv st) :
    CacheInv { st with active := rmA k st.active } := by
  obtain ⟨hk, hsl, hb⟩ := h
  have hsub : List.Sublist
      (((rmA k st.active).map fun e => e.1) ++ waitKeys st)
      (activeKeys st ++ waitKeys st) :=
    List.Sublist.append ((rmA_sublist _ _).map _) (List.Sublist.refl _)
  have hsubS : List.Sublist
      (((rmA k st.active).map fun e => e.2.1) ++ st.waits.map fun e => e.2)
      (usedSlots st) :=
    List.Sublist.append ((rmA_sublist _ _).map _) (List.Sublist.refl _)
  exact ⟨hk.sublist hsub, hsl.sublist hsubS,
    fun x hx => hb x (hsubS.subset hx)⟩

theorem cacheInv_updEvict (f : ℤ) (ev : Bool) (st1 : CacheState)
    (h : CacheInv st1) : CacheInv (updEvict f ev st1) := by
  unfold updEvict
  split
  · split
    · exact h
    · exact cacheInv_rmA _ _ h
  · exact h

theorem cacheInv_update (cfg : CacheConfig) (f : ℤ) (ev : Bool)
    (st : CacheState) (h : CacheInv st) :
    CacheInv (cache_update cfg f ev st) := by
  unfold cache_update
  have h1 : CacheInv { st with loads := st.loads.drop cfg.maxLoads } := h
  exact cacheInv_updEvict f ev _
    (cacheInv_foldProc f (st.loads.take cfg.maxLoads) _ h1)

theorem cacheInv_flush (st : CacheState) : CacheInv (cache_flush st) := by
  refine ⟨?_, ?_, ?_⟩ <;> simp [cache_flush, activeKeys, waitKeys, usedSlots]

theorem cacheInv_applyOp (cfg : CacheConfig) (op : CacheOp) (st : CacheState)
    (h : CacheInv st) : CacheInv (applyOp cfg op st) := by
  cases op with
  | look k f => exact cacheInv_get_page cfg k f st h
  | work fo => exact cacheInv_workerStep cfg fo st h
  | upd f ev => exact cacheInv_update cfg f ev st h
  | flushOp => exact cacheInv_flush st

theorem cacheInv_runOps (cfg : CacheConfig) (ops : List CacheOp) :
    ∀ st : CacheState, CacheInv st → CacheInv (runOps cfg ops st) := by
  induction ops with
  | nil => exact fun st h => h
  | cons o os ih =>
    exact fun st h => ih _ (cacheInv_applyOp cfg o st h)

theorem cacheInv_init (tex s n : ℕ) : CacheInv (initCache tex s n) := by
  refine ⟨?_, ?_, ?_⟩ <;> simp [initCache, activeKeys, waitKeys, usedSlots]

theorem usedSlots_length (st : CacheState) :
    (usedSlots st).length = usedCount st := by
  simp [usedSlots, usedCount]

theorem usedCount_le (st : CacheState) (h : CacheInv st) :
    usedCount st ≤ st.s * st.s := by
  obtain ⟨-, hnd, hb⟩ := h
  have h1 : (usedSlots st).toFinset.card = (usedSlots st).length :=
    List.toFinset_card_of_nodup hnd
  have h2 : (usedSlots st).toFinset ⊆ Finset.range (st.s * st.s) := by
    intro x hx
    rw [List.mem_toFinset] at hx
    exact Finset.mem_range.mpr (hb x hx)
  have h3 := Finset.card_le_card h2
  rw [h1, Finset.card_range, usedSlots_length] at h3
  exact h3

theorem procTask_s (f : ℤ) (st : CacheState) (tk : PageKey × ℕ × Bool) :
    (procTask f st tk).s = st.s := by
  unfold procTask
  split
  · rfl
  · rfl

theorem foldProc_s (f : ℤ) (ts : List (PageKey × ℕ × Bool)) :
    ∀ st : CacheState, (ts.foldl (procTask f) st).s = st.s := by
  induction ts with
  | nil => exact fun st => rfl
  | cons t ts ih =>
    intro st
    rw [List.foldl_cons, ih, procTask_s]

theorem updEvict_s (f : ℤ) (ev : Bool) (st1 : CacheState) :
    (updEvict f ev st1).s = st1.s := by
  unfold updEvict
  split
  · split
    · rfl
    · rfl
  · rfl

theorem get_page_s (cfg : CacheConfig) (k : PageKey) (f : ℤ)
    (st : CacheState) : ((get_page cfg k f st).2).s = st.s := by
  rcases hA : lookA k st.active with _ | r
  · rcases hW : lookW k st.waits with _ | sl
    · rcases hF : leastFree st with _ | sl
      · simp [get_page, hA, hW, hF]
      · by_cases hq : st.needs.length < cfg.needCap <;>
          simp [get_page, hA, hW, hF, hq]
    · simp [get_page, hA, hW]
  · simp [get_page, hA]

theorem workerStep_s (cfg : CacheConfig) (found : Bool) (st : CacheState) :
    (workerStep cfg found st).s = st.s := by
  unfold workerStep
  split
  · rfl
  · split
    · rfl
    · rfl

theorem applyOp_s (cfg : CacheConfig) (op : CacheOp) (st : CacheState) :
    (applyOp cfg op st).s = st.s := by
  cases op with
  | look k f => exact get_page_s cfg k f st
  | work fo => exact workerStep_s cfg fo st
  | upd f ev =>
    show (cache_update cfg f ev st).s = st.s
    unfold cache_update
    rw [updEvict_s, foldProc_s]
  | flushOp => rfl

theorem runOps_s (cfg : CacheConfig) (ops : List CacheOp) :
    ∀ st : CacheState, (runOps cfg ops st).s = st.s := by
  induction ops with
  | nil => exact fun st => rfl
  | cons o os ih =>
    intro st
    show (runOps cfg os (applyOp cfg o st)).s = st.s
    rw [ih, applyOp_s]

/-! ## Theorem for claim C1 -/

/-- C1: for every sequence of cache operations starting from a freshly
constructed cache, a PageKey is a member of at most one of the active and
waiting sets (the combined key list has no duplicate), a slot index is
owned by at most one PageKey across both sets (the combined slot list has
no duplicate), and the total number of active plus waiting slots never
exceeds S * S. -/
theorem cache_page_sets_invariant (cfg : CacheConfig) (tex s n : ℕ)
    (ops : List CacheOp) :
    (activeKeys (runOps cfg ops (initCache tex s n)) ++
      waitKeys (runOps cfg ops (initCache tex s n))).Nodup ∧
    (usedSlots (runOps cfg ops (initCache tex s n))).Nodup ∧
    usedCount (runOps cfg ops (initCache tex s n)) ≤ s * s := by
  have h := cacheInv_runOps cfg ops _ (cacheInv_init tex s n)
  refine ⟨h.1, h.2.1, ?_⟩
  have h2 := usedCount_le _ h
  rwa [runOps_s] at h2

/-! ## Per-key state machine (claim C2 machinery) -/

theorem pstate_eq_absent_iff {st : CacheState} {k : PageKey} :
    pstate st k = .absent ↔ (k ∉ activeKeys st ∧ k ∉ waitKeys st) := by
  unfold pstate
  split_ifs with h1 h2 <;> simp_all

theorem pstate_eq_active_iff {st : CacheState} {k : PageKey} :
    pstate st k = .activeS ↔ k ∈ activeKeys st := by
  unfold pstate
  split_ifs with h1 h2 <;> simp_all

theorem pstate_eq_waiting_iff {st : CacheState} {k : PageKey} :
    pstate st k = .waiting ↔ (k ∉ activeKeys st ∧ k ∈ waitKeys st) := by
  unfold pstate
  split_ifs with h1 h2 <;> simp_all

theorem pstate_keys_congr {st st' : CacheState} (k : PageKey)
    (h1 : activeKeys st' = activeKeys st) (h2 : waitKeys st' = waitKeys st) :
    pstate st' k = pstate st k := by
  unfold pstate
  rw [h1, h2]

theorem allowed_to_absent (p : PState) : AllowedStep p .absent := by
  cases p <;> simp [AllowedStep]

theorem allowed_refl (p : PState) : AllowedStep p p :=
  Or.inl rfl

/-- Branch characterization of scm_cache::get_page's state effect. -/
theorem get_page_cases (cfg : CacheConfig) (k' : PageKey) (f : ℤ)
    (st : CacheState) :
    ((get_page cfg k' f st).2.active = stampA k' f st.active ∧
       (get_page cfg k' f st).2.waits = st.waits ∧ k' ∈ activeKeys st) ∨
    (get_page cfg k' f st).2 = st ∨
    ((get_page cfg k' f st).2.active = st.active ∧
       (∃ sl, (get_page cfg k' f st).2.waits = (k', sl) :: st.waits) ∧
       k' ∉ activeKeys st ∧ k' ∉ waitKeys st) := by
  rcases hA : lookA k' st.active with _ | r
  · have hkA : k' ∉ activeKeys st := by
      intro hm
      have := (lookA_isSome_iff k' st.active).mpr hm
      rw [hA] at this
      simp at this
    rcases hW : lookW k' st.waits with _ | sl
    · have hkW : k' ∉ waitKeys st := by
        intro hm
        have := (lookW_isSome_iff k' st.waits).mpr hm
        rw [hW] at this
        simp at this
      rcases hF : leastFree st with _ | sl
      · exact Or.inr (Or.inl (by simp [get_page, hA, hW, hF]))
      · by_cases hq : st.needs.length < cfg.needCap
        · refine Or.inr (Or.inr ⟨?_, ⟨sl, ?_⟩, hkA, hkW⟩) <;>
            simp [get_page, hA, hW, hF, hq]
        · exact Or.inr (Or.inl (by simp [get_page, hA, hW, hF, hq]))
    · exact Or.inr (Or.inl (by simp [get_page, hA, hW]))
  · have hkA : k' ∈ activeKeys st := by
      have : (lookA k' st.active).isSome = true := by rw [hA]; rfl
      exact (lookA_isSome_iff k' st.active).mp this
    exact Or.inl (by simp [get_page, hA, hkA])

/-- Branch characterization of one completed-task step. -/
theorem procTask_cases (f : ℤ) (st : CacheState) (tk : PageKey × ℕ × Bool) :
    procTask f st tk = st ∨
    ∃ sl, lookW tk.1 st.waits = some sl ∧
      procTask f st tk =
        { st with waits := rmW tk.1 st.waits,
                  active := if tk.2.2 then (tk.1, sl, f) :: st.active
                            else st.active } := by
  rcases hW : lookW tk.1 st.waits with _ | sl
  · exact Or.inl (by simp [procTask, hW])
  · exact Or.inr ⟨sl, rfl, by simp [procTask, hW]⟩

theorem procTask_active_mono {k : PageKey} (f : ℤ) (st : CacheState)
    (tk : PageKey × ℕ × Bool) (h : k ∈ activeKeys st) :
    k ∈ activeKeys (procTask f st tk) := by
  rcases procTask_cases f st tk with hc | ⟨sl, hW, hc⟩
  · rwa [hc]
  · rw [hc]
    show k ∈ (if tk.2.2 then (tk.1, sl, f) :: st.active
        else st.active).map fun e => e.1
    by_cases hf : tk.2.2 = true
    · rw [if_pos hf, List.map_cons]
      exact List.mem_cons_of_mem _ h
    · rw [if_neg hf]
      exact h

theorem procTask_waits_anti {k : PageKey} (f : ℤ) (st : CacheState)
    (tk : PageKey × ℕ × Bool) (h : k ∉ waitKeys st) :
    k ∉ waitKeys (procTask f st tk) := by
  rcases procTask_cases f st tk with hc | ⟨sl, hW, hc⟩
  · rwa [hc]
  · rw [hc]
    intro hm
    exact h (((rmW_sublist tk.1 st.waits).map (fun e => e.1)).subset hm)

theorem procTask_absent {k : PageKey} (f : ℤ) (st : CacheState)
    (tk : PageKey × ℕ × Bool) (hA : k ∉ activeKeys st)
    (hW : k ∉ waitKeys st) :
    k ∉ activeKeys (procTask f st tk) ∧ k ∉ waitKeys (procTask f st tk) := by
  refine ⟨?_, procTask_waits_anti f st tk hW⟩
  rcases procTask_cases f st tk with hc | ⟨sl, hWs, hc⟩
  · rwa [hc]
  · rw [hc]
    have hne : tk.1 ≠ k := by
      intro he
      have hmem : (k, sl) ∈ st.waits := lookW_some_mem (he ▸ hWs)
      exact hW (List.mem_map.mpr ⟨(k, sl), hmem, rfl⟩)
    show k ∉ (if tk.2.2 then (tk.1, sl, f) :: st.active
        else st.active).map fun e => e.1
    by_cases hf : tk.2.2 = true
    · rw [if_pos hf, List.map_cons]
      intro hm
      rcases List.mem_cons.mp hm with he | hm
      · exact hne he.symm
      · exact hA hm
    · rw [if_neg hf]
      exact hA

theorem procTask_ages (f : ℤ) (st : CacheState) (tk : PageKey × ℕ × Bool) :
    ∀ e ∈ (procTask f st tk).active, e ∈ st.active ∨ e.2.2 = f := by
  rcases procTask_cases f st tk with hc | ⟨sl, hW, hc⟩
  · rw [hc]
    exact fun e he => Or.inl he
  · rw [hc]
    intro e he
    revert he
    show e ∈ (if tk.2.2 then (tk.1, sl, f) :: st.active else st.active) → _
    by_cases hf : tk.2.2 = true
    · rw [if_pos hf]
      intro he
      rcases List.mem_cons.mp he with rfl | he
      · exact Or.inr rfl
      · exact Or.inl he
    · rw [if_neg hf]
      exact fun he => Or.inl he

theorem foldProc_active_mono (f : ℤ) (ts : List (PageKey × ℕ × Bool)) :
    ∀ (st : CacheState) (k : PageKey), k ∈ activeKeys st →
      k ∈ activeKeys (ts.foldl (procTask f) st) := by
  induction ts with
  | nil => exact fun st k h => h
  | cons t ts ih =>
    exact fun st k h => ih _ k (procTask_active_mono f st t h)

theorem foldProc_waits_anti (f : ℤ) (ts : List (PageKey × ℕ × Bool)) :
    ∀ (st : CacheState) (k : PageKey), k ∉ waitKeys st →
      k ∉ waitKeys (ts.foldl (procTask f) st) := by
  induction ts with
  | nil => exact fun st k h => h
  | cons t ts ih =>
    exact fun st k h => ih _ k (procTask_waits_anti f st t h)

theorem foldProc_absent (f : ℤ) (ts : List (PageKey × ℕ × Bool)) :
    ∀ (st : CacheState) (k : PageKey), k ∉ activeKeys st → k ∉ waitKeys st →
      k ∉ activeKeys (ts.foldl (procTask f) st) ∧
      k ∉ waitKeys (ts.foldl (procTask f) st) := by
  induction ts with
  | nil => exact fun st k hA hW => ⟨hA, hW⟩
  | cons t ts ih =>
    intro st k hA hW
    obtain ⟨hA1, hW1⟩ := procTask_absent f st t hA hW
    exact ih _ k hA1 hW1

theorem foldProc_ages (f : ℤ) (ts : List (PageKey × ℕ × Bool)) :
    ∀ (st : CacheState), ∀ e ∈ (ts.foldl (procTask f) st).active,
      e ∈ st.active ∨ e.2.2 = f := by
  induction ts with
  | nil => exact fun st e he => Or.inl he
  | cons t ts ih =>
    intro st e he
    rcases ih _ e he with h1 | h1
    · rcases procTask_ages f st t e h1 with h2 | h2
      · exact Or.inl h2
      · exact Or.inr h2
    · exact Or.inr h1

theorem foldl_better_mem (cs : List (PageKey × ℕ × ℤ)) :
    ∀ c, cs.foldl betterVictim c = c ∨ cs.foldl betterVictim c ∈ cs := by
  induction cs with
  | nil => exact fun c => Or.inl rfl
  | cons d ds ih =>
    intro c
    rw [List.foldl_cons]
    rcases ih (betterVictim c d) with h | h
    · rw [h]
      unfold betterVictim
      split
      · exact Or.inr (List.mem_cons_self _ _)
      · exact Or.inl rfl
    · exact Or.inr (List.mem_cons_of_mem _ h)

theorem evictVictim_mem {f : ℤ} {A : List (PageKey × ℕ × ℤ)}
    {v : PageKey × ℕ × ℤ} (h : evictVictim f A = some v) :
    v ∈ A ∧ v.2.2 ≠ f := by
  unfold evictVictim at h
  rcases hf : A.filter (fun e => decide (e.2.2 ≠ f)) with _ | ⟨c, cs⟩
  · rw [hf] at h
    simp at h
  · rw [hf] at h
    injection h with h
    subst h
    have hv : cs.foldl betterVictim c ∈ c :: cs := by
      rcases foldl_better_mem cs c with h2 | h2
      · rw [h2]
        exact List.mem_cons_self _ _
      · exact List.mem_cons_of_mem _ h2
    rw [← hf] at hv
    have := List.mem_filter.mp hv
    exact ⟨this.1, of_decide_eq_true this.2⟩

/-- Branch characterization of the eviction phase. -/
theorem updEvict_cases (f : ℤ) (ev : Bool) (st1 : CacheState) :
    updEvict f ev st1 = st1 ∨
    ∃ v, evictVictim f st1.active = some v ∧ v ∈ st1.active ∧ v.2.2 ≠ f ∧
      updEvict f ev st1 = { st1 with active := rmA v.1 st1.active } := by
  unfold updEvict
  split
  · rcases hv : evictVictim f st1.active with _ | v
    · exact Or.inl rfl
    · obtain ⟨h1, h2⟩ := evictVictim_mem hv
      exact Or.inr ⟨v, rfl, h1, h2, rfl⟩
  · exact Or.inl rfl

theorem updEvict_waits (f : ℤ) (ev : Bool) (st1 : CacheState) :
    (updEvict f ev st1).waits = st1.waits := by
  rcases updEvict_cases f ev st1 with h | ⟨v, -, -, -, h⟩ <;> rw [h]

theorem workerStep_sets (cfg : CacheConfig) (found : Bool)
    (st : CacheState) :
    (workerStep cfg found st).active = st.active ∧
    (workerStep cfg found st).waits = st.waits := by
  unfold workerStep
  split
  · exact ⟨rfl, rfl⟩
  · split
    · exact ⟨rfl, rfl⟩
    · exact ⟨rfl, rfl⟩

theorem allowed_from_waiting (q : PState) : AllowedStep .waiting q := by
  cases q <;> simp [AllowedStep]

theorem transition_goals_of_eq (p : PState) (c3 c4 c5 : Prop) :
    AllowedStep p p ∧ (p = .absent → p ≠ .activeS) ∧
    (p = .absent → p = .waiting → c3) ∧
    (p = .waiting → p = .activeS → c4) ∧
    (p ≠ .absent → p = .absent → c5) := by
  refine ⟨allowed_refl p, ?_, ?_, ?_, ?_⟩
  · intro hp
    rw [hp]
    simp
  · intro hp hw
    rw [hp] at hw
    simp at hw
  · intro hp hw
    rw [hw] at hp
    simp at hp
  · intro hp hw
    exact absurd hw hp

theorem cache_update_absent (cfg : CacheConfig) (f : ℤ) (ev : Bool)
    (st : CacheState) (k : PageKey) (hA : k ∉ activeKeys st)
    (hW : k ∉ waitKeys st) :
    pstate (cache_update cfg f ev st) k = .absent := by
  unfold cache_update
  obtain ⟨h1A, h1W⟩ := foldProc_absent f (st.loads.take cfg.maxLoads)
    { st with loads := st.loads.drop cfg.maxLoads } k hA hW
  rcases updEvict_cases f ev ((st.loads.take cfg.maxLoads).foldl (procTask f)
      { st with loads := st.loads.drop cfg.maxLoads }) with
    heq | ⟨v, hv, hvmem, hvage, heq⟩
  · rw [heq]
    exact pstate_eq_absent_iff.mpr ⟨h1A, h1W⟩
  · rw [heq]
    apply pstate_eq_absent_iff.mpr
    refine ⟨?_, h1W⟩
    intro hm
    exact h1A (((rmA_sublist _ _).map (fun e => e.1)).subset hm)

theorem cache_update_active (cfg : CacheConfig) (f : ℤ) (ev : Bool)
    (st : CacheState) (k : PageKey) (h : CacheInv st)
    (hA : k ∈ activeKeys st) :
    pstate (cache_update cfg f ev st) k = .activeS ∨
    pstate (cache_update cfg f ev st) k = .absent := by
  have hW : k ∉ waitKeys st := by
    have h1 := h.1
    rw [List.nodup_append] at h1
    exact fun hm => h1.2.2 hA hm
  unfold cache_update
  have h1A := foldProc_active_mono f (st.loads.take cfg.maxLoads)
    { st with loads := st.loads.drop cfg.maxLoads } k hA
  have h1W := foldProc_waits_anti f (st.loads.take cfg.maxLoads)
    { st with loads := st.loads.drop cfg.maxLoads } k hW
  rcases updEvict_cases f ev ((st.loads.take cfg.maxLoads).foldl (procTask f)
      { st with loads := st.loads.drop cfg.maxLoads }) with
    heq | ⟨v, hv, hvmem, hvage, heq⟩
  · rw [heq]
    exact Or.inl (pstate_eq_active_iff.mpr h1A)
  · rw [heq]
    by_cases h2 : k ∈ activeKeys { ((st.loads.take cfg.maxLoads).foldl
        (procTask f) { st with loads := st.loads.drop cfg.maxLoads }) with
        active := rmA v.1 ((st.loads.take cfg.maxLoads).foldl (procTask f)
          { st with loads := st.loads.drop cfg.maxLoads }).active }
    · exact Or.inl (pstate_eq_active_iff.mpr h2)
    · exact Or.inr (pstate_eq_absent_iff.mpr ⟨h2, h1W⟩)

/-! ## Theorem for claim C2 -/

/-- C2: for every PageKey, a single cache operation moves its observable
state only along the transitions Absent to Waiting (and only on a lookup of
that key, i.e. a cold miss), Waiting to Active (and only on an update),
Active to Absent and Waiting to Absent (and only on an update, which covers
eviction and not-found, or on a flush), or leaves it unchanged. No
operation moves a key directly from Absent to Active, so a page that was
loaded, evicted and requested again is observed Waiting before it can be
reported Active again. -/
theorem cache_page_state_transitions (cfg : CacheConfig) (op : CacheOp)
    (st : CacheState) (k : PageKey) (h : CacheInv st) :
    AllowedStep (pstate st k) (pstate (applyOp cfg op st) k) ∧
    (pstate st k = .absent → pstate (applyOp cfg op st) k ≠ .activeS) ∧
    (pstate st k = .absent → pstate (applyOp cfg op st) k = .waiting →
      ∃ f, op = .look k f) ∧
    (pstate st k = .waiting → pstate (applyOp cfg op st) k = .activeS →
      ∃ f ev, op = .upd f ev) ∧
    (pstate st k ≠ .absent → pstate (applyOp cfg op st) k = .absent →
      (∃ f ev, op = .upd f ev) ∨ op = .flushOp) := by
  cases op with
  | flushOp =>
    have hq : pstate (applyOp cfg .flushOp st) k = .absent := by
      apply pstate_eq_absent_iff.mpr
      constructor <;> simp [applyOp, cache_flush, activeKeys, waitKeys]
    rw [hq]
    refine ⟨allowed_to_absent _, ?_, ?_, ?_, ?_⟩
    · intro _
      simp
    · intro _ h2
      simp at h2
    · intro _ h2
      simp at h2
    · intro _ _
      exact Or.inr rfl
  | work fo =>
    have h1 : activeKeys (applyOp cfg (.work fo) st) = activeKeys st := by
      show activeKeys (workerStep cfg fo st) = activeKeys st
      unfold activeKeys
      rw [(workerStep_sets cfg fo st).1]
    have h2 : waitKeys (applyOp cfg (.work fo) st) = waitKeys st := by
      show waitKeys (workerStep cfg fo st) = waitKeys st
      unfold waitKeys
      rw [(workerStep_sets cfg fo st).2]
    have hq : pstate (applyOp cfg (.work fo) st) k = pstate st k :=
      pstate_keys_congr k h1 h2
    rw [hq]
    exact transition_goals_of_eq _ _ _ _
  | look k' f =>
    rcases get_page_cases cfg k' f st with ⟨ha, hw, hkA⟩ | heq |
      ⟨ha, ⟨sl, hw⟩, hkA, hkW⟩
    · have h1 : activeKeys (applyOp cfg (.look k' f) st) = activeKeys st := by
        show activeKeys (get_page cfg k' f st).2 = activeKeys st
        unfold activeKeys
        rw [ha, stampA_map_key]
      have h2 : waitKeys (applyOp cfg (.look k' f) st) = waitKeys st := by
        show waitKeys (get_page cfg k' f st).2 = waitKeys st
        unfold waitKeys
        rw [hw]
      rw [pstate_keys_congr k h1 h2]
      exact transition_goals_of_eq _ _ _ _
    · have hq : pstate (applyOp cfg (.look k' f) st) k = pstate st k := by
        show pstate (get_page cfg k' f st).2 k = pstate st k
        rw [heq]
      rw [hq]
      exact transition_goals_of_eq _ _ _ _
    · have h1 : activeKeys (applyOp cfg (.look k' f) st) = activeKeys st := by
        show activeKeys (get_page cfg k' f st).2 = activeKeys st
        unfold activeKeys
        rw [ha]
      have h2 : waitKeys (applyOp cfg (.look k' f) st) =
          k' :: waitKeys st := by
        show waitKeys (get_page cfg k' f st).2 = k' :: waitKeys st
        unfold waitKeys
        rw [hw, List.map_cons]
      by_cases hk : k = k'
      · subst hk
        have hp : pstate st k = .absent := pstate_eq_absent_iff.mpr ⟨hkA, hkW⟩
        have hq : pstate (applyOp cfg (.look k f) st) k = .waiting := by
          apply pstate_eq_waiting_iff.mpr
          rw [h1, h2]
          exact ⟨hkA, List.mem_cons_self _ _⟩
        rw [hp, hq]
        refine ⟨Or.inr (Or.inl ⟨rfl, rfl⟩), ?_, ?_, ?_, ?_⟩
        · intro _
          simp
        · intro _ _
          exact ⟨f, rfl⟩
        · intro h2 _
          simp at h2
        · intro h2 _
          exact absurd rfl h2
      · have h2' : k ∈ waitKeys (applyOp cfg (.look k' f) st) ↔
            k ∈ waitKeys st := by
          rw [h2]
          simp [List.mem_cons, hk]
        have hq : pstate (applyOp cfg (.look k' f) st) k = pstate st k := by
          unfold pstate
          rw [h1]
          by_cases hmw : k ∈ waitKeys st
          · simp [hmw, h2'.mpr hmw]
          · have hmw' : k ∉ waitKeys (applyOp cfg (.look k' f) st) :=
              fun hc => hmw (h2'.mp hc)
            simp [hmw, hmw']
        rw [hq]
        exact transition_goals_of_eq _ _ _ _
  | upd f ev =>
    cases hp : pstate st k with
    | absent =>
      obtain ⟨hA, hW⟩ := pstate_eq_absent_iff.mp hp
      have hq : pstate (applyOp cfg (.upd f ev) st) k = .absent :=
        cache_update_absent cfg f ev st k hA hW
      rw [hq]
      refine ⟨allowed_to_absent _, ?_, ?_, ?_, ?_⟩
      · intro _
        simp
      · intro _ h2
        simp at h2
      · intro h2 _
        simp at h2
      · intro h2 _
        exact absurd rfl h2
    | waiting =>
      refine ⟨allowed_from_waiting _, ?_, ?_, ?_, ?_⟩
      · intro h2
        simp at h2
      · intro h2 _
        simp at h2
      · intro _ _
        exact ⟨f, ev, rfl⟩
      · intro _ _
        exact Or.inl ⟨f, ev, rfl⟩
    | activeS =>
      have hA := pstate_eq_active_iff.mp hp
      rcases cache_update_active cfg f ev st k h hA with hq | hq
      · rw [show pstate (applyOp cfg (.upd f ev) st) k = .activeS from hq]
        refine ⟨Or.inl rfl, ?_, ?_, ?_, ?_⟩
        · intro h2
          simp at h2
        · intro h2 _
          simp at h2
        · intro h2 _
          simp at h2
        · intro _ h2
          simp at h2
      · rw [show pstate (applyOp cfg (.upd f ev) st) k = .absent from hq]
        refine ⟨allowed_to_absent _, ?_, ?_, ?_, ?_⟩
        · intro h2
          simp at h2
        · intro h2 _
          simp at h2
        · intro h2 _
          simp at h2
        · intro _ _
          exact Or.inl ⟨f, ev, rfl⟩

/-- Witness for C2: a flush on a small valid cache, observed at one key. -/
theorem cache_page_state_transitions_witness :
    CacheInv (initCache 0 2 1) ∧
    (AllowedStep (pstate (initCache 0 2 1) ((0 : ℤ), (0 : ℤ)))
        (pstate (applyOp ⟨1, 1, 1⟩ .flushOp (initCache 0 2 1))
          ((0 : ℤ), (0 : ℤ))) ∧
      (pstate (initCache 0 2 1) ((0 : ℤ), (0 : ℤ)) = .absent →
        pstate (applyOp ⟨1, 1, 1⟩ .flushOp (initCache 0 2 1))
          ((0 : ℤ), (0 : ℤ)) ≠ .activeS) ∧
      (pstate (initCache 0 2 1) ((0 : ℤ), (0 : ℤ)) = .absent →
        pstate (applyOp ⟨1, 1, 1⟩ .flushOp (initCache 0 2 1))
          ((0 : ℤ), (0 : ℤ)) = .waiting →
        ∃ f, CacheOp.flushOp = .look ((0 : ℤ), (0 : ℤ)) f) ∧
      (pstate (initCache 0 2 1) ((0 : ℤ), (0 : ℤ)) = .waiting →
        pstate (applyOp ⟨1, 1, 1⟩ .flushOp (initCache 0 2 1))
          ((0 : ℤ), (0 : ℤ)) = .activeS →
        ∃ f ev, CacheOp.flushOp = .upd f ev) ∧
      (pstate (initCache 0 2 1) ((0 : ℤ), (0 : ℤ)) ≠ .absent →
        pstate (applyOp ⟨1, 1, 1⟩ .flushOp (initCache 0 2 1))
          ((0 : ℤ), (0 : ℤ)) = .absent →
        (∃ f ev, CacheOp.flushOp = .upd f ev) ∨
          CacheOp.flushOp = .flushOp)) :=
  ⟨by decide, cache_page_state_transitions ⟨1, 1, 1⟩ .flushOp
    (initCache 0 2 1) ((0 : ℤ), (0 : ℤ)) (by decide)⟩

/-! ## Backpressure (claim C3 machinery) -/

theorem lookA_eq_none_of_not_mem {k : PageKey} {A : List (PageKey × ℕ × ℤ)}
    (h : k ∉ A.map fun e => e.1) : lookA k A = none := by
  rcases hlook : lookA k A with _ | r
  · rfl
  · exact absurd ((lookA_isSome_iff k A).mp (by rw [hlook]; rfl)) h

theorem lookW_eq_none_of_not_mem {k : PageKey} {W : List (PageKey × ℕ)}
    (h : k ∉ W.map fun e => e.1) : lookW k W = none := by
  rcases hlook : lookW k W with _ | r
  · rfl
  · exact absurd ((lookW_isSome_iff k W).mp (by rw [hlook]; rfl)) h

theorem get_page_miss_fail (cfg : CacheConfig) (k : PageKey) (f : ℤ)
    (st : CacheState) (hA : k ∉ activeKeys st) (hW : k ∉ waitKeys st)
    (hfail : leastFree st = none ∨ cfg.needCap ≤ st.needs.length) :
    get_page cfg k f st = (none, st) := by
  have hA' : lookA k st.active = none := lookA_eq_none_of_not_mem hA
  have hW' : lookW k st.waits = none := lookW_eq_none_of_not_mem hW
  rcases hfail with hF | hq
  · simp [get_page, hA', hW', hF]
  · rcases hF : leastFree st with _ | sl
    · simp [get_page, hA', hW', hF]
    · simp [get_page, hA', hW', hF, not_lt.mpr hq]

theorem get_page_cold_push (cfg : CacheConfig) (k : PageKey) (f : ℤ)
    (st : CacheState) (hA : k ∉ activeKeys st) (hW : k ∉ waitKeys st)
    {sl : ℕ} (hF : leastFree st = some sl)
    (hq : st.needs.length < cfg.needCap) :
    get_page cfg k f st = (none, pushState st k sl) := by
  have hA' : lookA k st.active = none := lookA_eq_none_of_not_mem hA
  have hW' : lookW k st.waits = none := lookW_eq_none_of_not_mem hW
  simp [get_page, hA', hW', hF, hq, pushState]

theorem leastFree_isSome (st : CacheState) (h : CacheInv st)
    (hlt : usedCount st < st.s * st.s) : ∃ sl, leastFree st = some sl := by
  obtain ⟨-, hnd, hb⟩ := h
  have hsub : ¬ Finset.range (st.s * st.s) ⊆ (usedSlots st).toFinset := by
    intro hsub
    have hc := Finset.card_le_card hsub
    rw [Finset.card_range, List.toFinset_card_of_nodup hnd,
      usedSlots_length] at hc
    exact absurd hc (not_le.mpr hlt)
  obtain ⟨i, hiR, hiN⟩ := Finset.not_subset.mp hsub
  have hmem : i ∈ List.range (st.s * st.s) :=
    List.mem_range.mpr (Finset.mem_range.mp hiR)
  have hnotin : i ∉ usedSlots st := fun hc => hiN (List.mem_toFinset.mpr hc)
  have hsome : ((List.range (st.s * st.s)).find? fun j =>
      decide (j ∉ usedSlots st)).isSome = true := by
    rw [List.find?_isSome]
    exact ⟨i, hmem, by simpa using hnotin⟩
  rcases hfind : (List.range (st.s * st.s)).find?
      (fun j => decide (j ∉ usedSlots st)) with _ | sl
  · rw [hfind] at hsome
    simp at hsome
  · exact ⟨sl, hfind⟩

theorem pushState_activeKeys (st : CacheState) (k : PageKey) (sl : ℕ) :
    activeKeys (pushState st k sl) = activeKeys st :=
  rfl

theorem pushState_waitKeys (st : CacheState) (k : PageKey) (sl : ℕ) :
    waitKeys (pushState st k sl) = k :: waitKeys st := by
  unfold pushState waitKeys
  rw [List.map_cons]

theorem pushState_needs_length (st : CacheState) (k : PageKey) (sl : ℕ) :
    (pushState st k sl).needs.length = st.needs.length + 1 := by
  unfold pushState
  rw [List.length_append, List.length_singleton]

theorem pushState_usedCount (st : CacheState) (k : PageKey) (sl : ℕ) :
    usedCount (pushState st k sl) = usedCount st + 1 := by
  show st.active.length + ((k, sl) :: st.waits).length =
    st.active.length + st.waits.length + 1
  rw [List.length_cons]
  omega

theorem coldmiss_run (cfg : CacheConfig) (f : ℤ) :
    ∀ (ks : List PageKey) (st : CacheState), CacheInv st → ks.Nodup →
      (∀ k ∈ ks, k ∉ activeKeys st ∧ k ∉ waitKeys st) →
      st.needs.length + ks.length ≤ cfg.needCap →
      usedCount st + ks.length ≤ st.s * st.s →
      CacheInv (runOps cfg (ks.map fun k => CacheOp.look k f) st) ∧
      (runOps cfg (ks.map fun k => CacheOp.look k f) st).needs.length =
        st.needs.length + ks.length ∧
      usedCount (runOps cfg (ks.map fun k => CacheOp.look k f) st) =
        usedCount st + ks.length ∧
      (runOps cfg (ks.map fun k => CacheOp.look k f) st).s = st.s ∧
      activeKeys (runOps cfg (ks.map fun k => CacheOp.look k f) st) =
        activeKeys st ∧
      (∀ k, k ∉ waitKeys st → k ∉ ks →
        k ∉ waitKeys (runOps cfg (ks.map fun k => CacheOp.look k f) st)) := by
  intro ks
  induction ks with
  | nil =>
    intro st hInv _ _ _ _
    exact ⟨hInv, by simp [runOps], by simp [runOps], rfl, rfl,
      fun k hk _ => hk⟩
  | cons k0 ks ih =>
    intro st hInv hnd habs hcap hslots
    obtain ⟨hA0, hW0⟩ := habs k0 (List.mem_cons_self _ _)
    have hlt : usedCount st < st.s * st.s := by
      rw [List.length_cons] at hslots
      omega
    obtain ⟨sl, hF⟩ := leastFree_isSome st hInv hlt
    have hq : st.needs.length < cfg.needCap := by
      rw [List.length_cons] at hcap
      omega
    have hpush := get_page_cold_push cfg k0 f st hA0 hW0 hF hq
    have hstep : runOps cfg ((k0 :: ks).map fun k => CacheOp.look k f) st =
        runOps cfg (ks.map fun k => CacheOp.look k f) (pushState st k0 sl) := by
      simp [runOps, applyOp, hpush]
    have hInv1 : CacheInv (pushState st k0 sl) := by
      have hv := cacheInv_get_page cfg k0 f st hInv
      rwa [hpush] at hv
    have hnd1 : ks.Nodup := (List.nodup_cons.mp hnd).2
    have hk0 : k0 ∉ ks := (List.nodup_cons.mp hnd).1
    have habs1 : ∀ k ∈ ks, k ∉ activeKeys (pushState st k0 sl) ∧
        k ∉ waitKeys (pushState st k0 sl) := by
      intro k hk
      obtain ⟨hkA, hkW⟩ := habs k (List.mem_cons_of_mem _ hk)
      refine ⟨hkA, ?_⟩
      rw [pushState_waitKeys]
      intro hc
      rcases List.mem_cons.mp hc with he | hc
      · exact hk0 (he ▸ hk)
      · exact hkW hc
    have hcap1 : (pushState st k0 sl).needs.length + ks.length ≤
        cfg.needCap := by
      rw [pushState_needs_length]
      rw [List.length_cons] at hcap
      omega
    have hslots1 : usedCount (pushState st k0 sl) + ks.length ≤
        (pushState st k0 sl).s * (pushState st k0 sl).s := by
      show usedCount (pushState st k0 sl) + ks.length ≤ st.s * st.s
      rw [pushState_usedCount]
      rw [List.length_cons] at hslots
      omega
    obtain ⟨ihInv, ihLen, ihCnt, ihS, ihA, ihW⟩ :=
      ih (pushState st k0 sl) hInv1 hnd1 habs1 hcap1 hslots1
    rw [hstep]
    refine ⟨ihInv, ?_, ?_, ?_, ?_, ?_⟩
    · rw [ihLen, pushState_needs_length, List.length_cons]
      omega
    · rw [ihCnt, pushState_usedCount, List.length_cons]
      omega
    · rw [ihS]
      rfl
    · rw [ihA, pushState_activeKeys]
    · intro k hkW hkns
      have hk0' : k ≠ k0 := fun he => hkns (he ▸ List.mem_cons_self _ _)
      have hkns' : k ∉ ks := fun hc => hkns (List.mem_cons_of_mem _ hc)
      apply ihW k ?_ hkns'
      rw [pushState_waitKeys]
      intro hc
      rcases List.mem_cons.mp hc with he | hc
      · exact hk0' he
      · exact hkW hc

/-! ## Theorem for claim C3 -/

/-- C3: a cold-miss lookup that cannot reserve a slot or cannot enqueue its
task (needs queue full) returns the "not yet available" sentinel and leaves
the cache state completely unchanged; and with needs capacity K, K + 1 cold
misses of distinct keys in one frame admit exactly K tasks, the (K + 1)-th
returning the sentinel with no state change (so it can simply be retried). -/
theorem cold_miss_backpressure :
    (∀ (cfg : CacheConfig) (k : PageKey) (f : ℤ) (st : CacheState),
      k ∉ activeKeys st → k ∉ waitKeys st →
      (leastFree st = none ∨ cfg.needCap ≤ st.needs.length) →
      get_page cfg k f st = (none, st)) ∧
    (∀ (cfg : CacheConfig) (f : ℤ) (ks : List PageKey) (klast : PageKey)
      (st : CacheState), CacheInv st → st.needs = [] →
      (ks ++ [klast]).Nodup →
      (∀ k ∈ ks ++ [klast], k ∉ activeKeys st ∧ k ∉ waitKeys st) →
      ks.length = cfg.needCap →
      usedCount st + (cfg.needCap + 1) ≤ st.s * st.s →
      (runOps cfg (ks.map fun k => CacheOp.look k f) st).needs.length =
        cfg.needCap ∧
      get_page cfg klast f
          (runOps cfg (ks.map fun k => CacheOp.look k f) st) =
        (none, runOps cfg (ks.map fun k => CacheOp.look k f) st)) := by
  constructor
  · exact fun cfg k f st hA hW hfail => get_page_miss_fail cfg k f st hA hW hfail
  · intro cfg f ks klast st hInv hneeds hnd habs hlen hcap
    have hndks : ks.Nodup := (List.nodup_append.mp hnd).1
    have hklast : klast ∉ ks := by
      have hd := (List.nodup_append.mp hnd).2.2
      intro hc
      exact hd hc (List.mem_singleton.mpr rfl)
    have habs' : ∀ k ∈ ks, k ∉ activeKeys st ∧ k ∉ waitKeys st :=
      fun k hk => habs k (List.mem_append.mpr (Or.inl hk))
    have hcapks : st.needs.length + ks.length ≤ cfg.needCap := by
      rw [hneeds, hlen]
      simp
    have hslotsks : usedCount st + ks.length ≤ st.s * st.s := by
      rw [hlen]
      omega
    obtain ⟨ihInv, ihLen, ihCnt, ihS, ihA, ihW⟩ :=
      coldmiss_run cfg f ks st hInv hndks habs' hcapks hslotsks
    have hlenR : (runOps cfg (ks.map fun k => CacheOp.look k f)
        st).needs.length = cfg.needCap := by
      rw [ihLen, hneeds, hlen]
      simp
    obtain ⟨hlA, hlW⟩ := habs klast (List.mem_append.mpr
      (Or.inr (List.mem_singleton.mpr rfl)))
    refine ⟨hlenR, ?_⟩
    apply get_page_miss_fail
    · rw [ihA]
      exact hlA
    · exact ihW klast hlW hklast
    · exact Or.inr (le_of_eq hlenR.symm)

/-- Witness for C3: capacity 1, two distinct cold misses on a fresh 2 x 2
cache; one task is admitted and the second lookup is a state-preserving
sentinel. -/
theorem cold_miss_backpressure_witness :
    (runOps ⟨1, 8, 2⟩ ([((0 : ℤ), (0 : ℤ))].map fun k => CacheOp.look k 5)
      (initCache 0 2 1)).needs.length = 1 ∧
    get_page ⟨1, 8, 2⟩ ((1 : ℤ), (1 : ℤ)) 5
        (runOps ⟨1, 8, 2⟩ ([((0 : ℤ), (0 : ℤ))].map fun k => CacheOp.look k 5)
          (initCache 0 2 1)) =
      (none, runOps ⟨1, 8, 2⟩
        ([((0 : ℤ), (0 : ℤ))].map fun k => CacheOp.look k 5)
        (initCache 0 2 1)) :=
  cold_miss_backpressure.2 ⟨1, 8, 2⟩ 5 [((0 : ℤ), (0 : ℤ))]
    ((1 : ℤ), (1 : ℤ)) (initCache 0 2 1) (by decide) rfl (by decide)
    (by decide) rfl (by decide)

/-! ## Unit-norm lemmas and theorem for claim C10 -/

namespace State

theorem quad3_nonneg (v : V3) : 0 ≤ quad3 v := by
  unfold quad3
  positivity

theorem quad4_nonneg (q : Q4) : 0 ≤ quad4 q := by
  unfold quad4
  positivity

theorem vnormalize_unit {v : V3} (h : quad3 v ≠ 0) :
    quad3 (vnormalize v) = 1 := by
  have hq0 : 0 ≤ quad3 v := quad3_nonneg v
  have hs : Real.sqrt (quad3 v) ^ 2 = quad3 v := Real.sq_sqrt hq0
  show (v.x / vlen v) ^ 2 + (v.y / vlen v) ^ 2 + (v.z / vlen v) ^ 2 = 1
  unfold vlen
  rw [div_pow, div_pow, div_pow, ← add_div, ← add_div, hs]
  show quad3 v / quad3 v = 1
  exact div_self h

theorem qnormalize_unit {q : Q4} (h : quad4 q ≠ 0) :
    quad4 (qnormalize q) = 1 := by
  have hq0 : 0 ≤ quad4 q := quad4_nonneg q
  have hs : Real.sqrt (quad4 q) ^ 2 = quad4 q := Real.sq_sqrt hq0
  show (q.x / qlen q) ^ 2 + (q.y / qlen q) ^ 2 + (q.z / qlen q) ^ 2 +
    (q.w / qlen q) ^ 2 = 1
  unfold qlen
  rw [div_pow, div_pow, div_pow, div_pow, ← add_div, ← add_div, ← add_div,
    hs]
  show quad4 q / quad4 q = 1
  exact div_self h

theorem quad4_qmul (a b : Q4) : quad4 (qmul a b) = quad4 a * quad4 b := by
  unfold quad4 qmul
  ring

theorem quad4_qrotx (t : ℝ) : quad4 (qrotx t) = 1 := by
  show Real.sin (t / 2) ^ 2 + 0 ^ 2 + 0 ^ 2 + Real.cos (t / 2) ^ 2 = 1
  simp

theorem quad4_qroty (t : ℝ) : quad4 (qroty t) = 1 := by
  show 0 ^ 2 + Real.sin (t / 2) ^ 2 + 0 ^ 2 + Real.cos (t / 2) ^ 2 = 1
  simp

theorem quad4_qrotz (t : ℝ) : quad4 (qrotz t) = 1 := by
  show 0 ^ 2 + 0 ^ 2 + Real.sin (t / 2) ^ 2 + Real.cos (t / 2) ^ 2 = 1
  simp

theorem quad4_qeuler (r : V3) : quad4 (qeuler r) = 1 := by
  unfold qeuler
  rw [quad4_qmul, quad4_qmul, quad4_qrotx, quad4_qroty, quad4_qrotz]
  norm_num

/-- C10: every scm_state constructor establishes, and each of the mutators
set_orientation, set_position, set_light, set_pitch,
transform_orientation, transform_position and transform_light
re-establishes, the invariant that the orientation is a unit quaternion
and the position and light are unit vectors — given nonzero inputs to the
final normalizations; the copy constructor preserves the invariant of its
source. -/
theorem scm_state_normalization (op : SOp) (s : SState)
    (h : sideCond op s) : unitState (applySOp op s) := by
  cases op with
  | ctorDefaultOp =>
    refine ⟨?_, ?_, ?_⟩
    · show quad4 ⟨0, 0, 0, 1⟩ = 1
      norm_num [quad4]
    · show quad3 ⟨0, 0, 1⟩ = 1
      norm_num [quad3]
    · show quad3 (vnormalize ⟨0, 2, 1⟩) = 1
      apply vnormalize_unit
      norm_num [quad3]
  | ctorCopyOp a => exact h
  | ctorLerpOp a b t =>
    obtain ⟨h1, h2, h3⟩ := h
    exact ⟨qnormalize_unit h1, vnormalize_unit h2, vnormalize_unit h3⟩
  | ctorHermiteOp a b c d t =>
    obtain ⟨h1, h2, h3⟩ := h
    exact ⟨qnormalize_unit h1, vnormalize_unit h2, vnormalize_unit h3⟩
  | ctorCamOp t r l =>
    obtain ⟨h1, h2⟩ := h
    exact ⟨quad4_qeuler r, vnormalize_unit h1, vnormalize_unit h2⟩
  | setOrientationOp q =>
    obtain ⟨hs, hq⟩ := h
    exact ⟨qnormalize_unit hq, hs.2.1, hs.2.2⟩
  | setPositionOp v =>
    obtain ⟨hs, hv⟩ := h
    exact ⟨hs.1, vnormalize_unit hv, hs.2.2⟩
  | setLightOp v =>
    obtain ⟨hs, hv⟩ := h
    exact ⟨hs.1, hs.2.1, vnormalize_unit hv⟩
  | setPitchOp a =>
    obtain ⟨hs, hq⟩ := h
    exact ⟨qnormalize_unit hq, hs.2.1, hs.2.2⟩
  | transformOrientationOp M =>
    obtain ⟨hs, hq⟩ := h
    exact ⟨qnormalize_unit hq, hs.2.1, hs.2.2⟩
  | transformPositionOp M =>
    obtain ⟨hs, hv⟩ := h
    exact ⟨hs.1, vnormalize_unit hv, hs.2.2⟩
  | transformLightOp M =>
    obtain ⟨hs, hv⟩ := h
    exact ⟨hs.1, hs.2.1, vnormalize_unit hv⟩

/-- Witness for C10: the default constructor followed by set_light with
the nonzero vector (0, 2, 1). -/
theorem scm_state_normalization_witness :
    sideCond (.setLightOp ⟨0, 2, 1⟩) (applySOp .ctorDefaultOp zeroState) ∧
    unitState (applySOp (.setLightOp ⟨0, 2, 1⟩)
      (applySOp .ctorDefaultOp zeroState)) := by
  have h0 : unitState (applySOp .ctorDefaultOp zeroState) :=
    scm_state_normalization .ctorDefaultOp zeroState trivial
  have hc : sideCond (.setLightOp ⟨0, 2, 1⟩)
      (applySOp .ctorDefaultOp zeroState) := by
    refine ⟨h0, ?_⟩
    norm_num [quad3]
  exact ⟨hc, scm_state_normalization _ _ hc⟩

end State

end Scm
